import Mathlib

/-
  Verification development for the NEAT-style neuroevolution engine of this
  repository.  Two variants exist in the source tree:

  * `Bobbles`  — the engine in bobbles/src/main.rs (genome with a node map,
    an innovation history, a compiler to a dense network with a DFS
    topological order, a tanh activation engine, and a three-way mutation
    operator).
  * `BasicNN`  — the engine in BasicNNTest/src/main.rs (dense node vector,
    a direct `forward` evaluator, an XOR fitness task, roulette selection
    and a generational `evolve` loop).

  Modelling conventions:
  * `f32`/`f64` values are modelled as `ℚ` (exact arithmetic).
  * The `tanh` nonlinearity of the bobbles engine is an explicit function
    parameter `sq : ℚ → ℚ` of the activation engine; statements that depend
    on the range of tanh hypothesise `-1 ≤ sq x ≤ 1`.  In the BasicNN
    engine the sigmoid return value is discarded by `forward` (the node
    keeps the raw incoming sum, as the source comments state), so no
    nonlinearity appears in that model at all.
  * `HashMap` state is modelled by association lists carrying the iteration
    order explicitly; theorems quantify over that order.
  * Rust panics (index out of bounds, `unwrap` on `None`) are modelled by
    `Option`, and the unbounded recursion of the compiler's `visit` by a
    fuel parameter: `none` is "the source program panics or diverges".
  * Random draws (`rng.random_range`, `choose`, `random_bool`) are explicit
    arguments or oracle streams; a theorem about "the mutation that picks X"
    fixes the corresponding argument.
-/

/-- `enum NodeType` — identical in both Rust sources. -/
inductive NodeType
  | Input
  | Hidden
  | Output
deriving DecidableEq

namespace Bobbles

/-- `struct Connection` of bobbles/src/main.rs. -/
structure Connection where
  from_idx : ℕ
  to_idx : ℕ
  weight : ℚ
  enabled : Bool
  innovation : ℕ
deriving DecidableEq

/-- `struct Genome` of bobbles/src/main.rs; `nodes: HashMap<usize, NodeType>`
is an association list in iteration order. -/
structure Genome where
  nodes : List (ℕ × NodeType)
  connections : List Connection
  fitness : ℚ := 0
deriving DecidableEq

/-- `struct InnovationHistory` of bobbles/src/main.rs. -/
structure InnovationHistory where
  map : List ((ℕ × ℕ) × ℕ)
  next_innovation : ℕ
  next_node_id : ℕ
deriving DecidableEq

/-- association-list lookup used by the `InnovationHistory` map model
(first binding wins, matching `HashMap::get` on unique keys). -/
def lookupPair : List ((ℕ × ℕ) × ℕ) → ℕ × ℕ → Option ℕ
  | [], _ => none
  | e :: es, k => if e.1 = k then some e.2 else lookupPair es k

/-- `InnovationHistory::get_innovation` (lines 77–86): return the recorded id
for `(f, t)`, or allocate `next_innovation`, record it and advance the
counter.  Returns the id together with the updated history. -/
def InnovationHistory.get_innovation (h : InnovationHistory) (f t : ℕ) :
    ℕ × InnovationHistory :=
  match lookupPair h.map (f, t) with
  | some id => (id, h)
  | none =>
      (h.next_innovation,
       { map := ((f, t), h.next_innovation) :: h.map,
         next_innovation := h.next_innovation + 1,
         next_node_id := h.next_node_id })

/-- `struct NodeState` of bobbles/src/main.rs. -/
structure NodeState where
  id : ℕ
  value : ℚ
  incoming : List (ℕ × ℚ)
  node_type : NodeType
deriving DecidableEq

/-- `struct NeuralNetwork` of bobbles/src/main.rs. -/
structure NeuralNetwork where
  nodes : List NodeState
  execution_order : List ℕ
  inputs_count : ℕ
  output_indices : List ℕ
deriving DecidableEq

/-- `id_to_idx` of `Genome::compile`: the dense index of a node id, i.e. the
position of its binding in iteration order (HashMap keys are unique, so the
first occurrence is the only one). -/
def idToIdx (key : ℕ) : List (ℕ × NodeType) → Option ℕ
  | [] => none
  | p :: ps => if p.1 = key then some 0 else (idToIdx key ps).map (· + 1)

/-- the `nodes_vec` built by the first loop of `Genome::compile`:
one zero-valued `NodeState` per genome node, in iteration order. -/
def initNodes (g : Genome) : List NodeState :=
  g.nodes.map (fun p => { id := p.1, value := 0, incoming := [], node_type := p.2 })

/-- the second loop of `Genome::compile`: for every *enabled* connection,
append `(source_index, weight)` to the target's incoming list.  `none`
models the `id_to_idx[..]` indexing panic on a dangling node id. -/
def addEdges (nodes : List (ℕ × NodeType)) : List Connection → List NodeState →
    Option (List NodeState)
  | [], nv => some nv
  | c :: cs, nv =>
    if c.enabled then
      match idToIdx c.to_idx nodes, idToIdx c.from_idx nodes with
      | some ti, some fi =>
          match nv.get? ti with
          | some n =>
              addEdges nodes cs
                (nv.set ti { n with incoming := n.incoming ++ [(fi, c.weight)] })
          | none => none
      | _, _ => none
    else addEdges nodes cs nv

/-- the recursive `visit` of `Genome::compile` (lines 113–126), with a fuel
parameter bounding the recursion depth (the Rust recursion is unbounded and
diverges on a cycle; `none` models that divergence, or an out-of-range
index panic).  State is `(visited, order)`. -/
def visit (nv : List NodeState) : ℕ → ℕ → List ℕ × List ℕ → Option (List ℕ × List ℕ)
  | 0, _, _ => none
  | fuel + 1, idx, st =>
    match nv.get? idx with
    | none => none
    | some n =>
      if idx ∈ st.1 ∨ n.node_type = NodeType.Input then some st
      else
        match (n.incoming.map Prod.fst).foldl
            (fun acc j => acc.bind (visit nv fuel j)) (some st) with
        | none => none
        | some st' => some (idx :: st'.1, st'.2 ++ [idx])

/-- sequential `visit` of a list of start nodes (the children loop inside
`visit`, and the loop over `output_indices` in `compile`). -/
def visitFold (nv : List NodeState) (fuel : ℕ) (js : List ℕ)
    (st : List ℕ × List ℕ) : Option (List ℕ × List ℕ) :=
  js.foldl (fun acc j => acc.bind (visit nv fuel j)) (some st)

/-- the `output_indices` computation of `Genome::compile`: dense indices of
the Output nodes, in order, starting at index `i`. -/
def outputIndicesFrom : List NodeState → ℕ → List ℕ
  | [], _ => []
  | n :: ns, i =>
    if n.node_type = NodeType.Output then i :: outputIndicesFrom ns (i + 1)
    else outputIndicesFrom ns (i + 1)

def outputIndices (nv : List NodeState) : List ℕ := outputIndicesFrom nv 0

/-- `Genome::compile` (lines 90–142), with `fuel` bounding the DFS depth of
each top-level `visit`. -/
def compile (fuel : ℕ) (g : Genome) : Option NeuralNetwork :=
  (addEdges g.nodes g.connections (initNodes g)).bind fun nv =>
    (visitFold nv fuel (outputIndices nv) ([], [])).map fun st =>
      { nodes := nv
        execution_order := st.2
        inputs_count := (g.nodes.filter (fun p => p.2 = NodeType.Input)).length
        output_indices := outputIndices nv }

/-- first loop of `NeuralNetwork::activate`: copy `inputs[ptr]` into each
Input node's value, in order.  `none` models the `inputs[input_ptr]`
out-of-bounds panic when the input vector is too short. -/
def setInputs (inputs : List ℚ) : List NodeState → ℕ → Option (List NodeState)
  | [], _ => some []
  | n :: ns, ptr =>
    if n.node_type = NodeType.Input then
      match inputs.get? ptr with
      | none => none
      | some x => (setInputs inputs ns (ptr + 1)).map (fun rest => { n with value := x } :: rest)
    else (setInputs inputs ns ptr).map (fun rest => n :: rest)

/-- `incoming.iter().map(|(from_idx, weight)| nodes[from_idx].value * weight).sum()`,
accumulated left to right.  `none` models an out-of-range source index. -/
def weightedSum (nv : List NodeState) : List (ℕ × ℚ) → ℚ → Option ℚ
  | [], acc => some acc
  | p :: ps, acc =>
    match nv.get? p.1 with
    | none => none
    | some m => weightedSum nv ps (acc + m.value * p.2)

/-- one step of the `execution_order` loop of `activate`: recompute node
`idx` as `sq` of its weighted incoming sum. -/
def stepNode (sq : ℚ → ℚ) (nv : List NodeState) (idx : ℕ) : Option (List NodeState) :=
  match nv.get? idx with
  | none => none
  | some n => (weightedSum nv n.incoming 0).map fun s => nv.set idx { n with value := sq s }

/-- the `execution_order` loop of `activate`. -/
def runOrder (sq : ℚ → ℚ) : List ℕ → List NodeState → Option (List NodeState)
  | [], nv => some nv
  | i :: is, nv =>
    match stepNode sq nv i with
    | none => none
    | some nv' => runOrder sq is nv'

/-- final gather of `activate`: the Output nodes' values in order. -/
def collectOut (nv : List NodeState) : List ℕ → Option (List ℚ)
  | [] => some []
  | i :: is =>
    match nv.get? i with
    | none => none
    | some n => (collectOut nv is).map fun rest => n.value :: rest

/-- `NeuralNetwork::activate` (lines 146–163).  The tanh squash is the
parameter `sq`. -/
def activate (sq : ℚ → ℚ) (nw : NeuralNetwork) (inputs : List ℚ) :
    Option (NeuralNetwork × List ℚ) :=
  (setInputs inputs nw.nodes 0).bind fun nv1 =>
    (runOrder sq nw.execution_order nv1).bind fun nv2 =>
      (collectOut nv2 nw.output_indices).map fun outs =>
        ({ nw with nodes := nv2 }, outs)

/-- `HashMap::insert` on the association-list node map: replace the binding
if the key exists, otherwise append (one possible iteration order for the
updated map). -/
def hmInsert : List (ℕ × NodeType) → ℕ → NodeType → List (ℕ × NodeType)
  | [], k, v => [(k, v)]
  | p :: ps, k, v => if p.1 = k then (k, v) :: ps else p :: hmInsert ps k v

/-- the add-connection branch of `Genome::mutate` (lines 181–192).
`i`, `j` are the two random draws of `keys.choose` (positions in the key
list), `w` the random weight; `none` models the `unwrap` panic on an empty
key list.  Rejected pairs leave the genome unchanged (no connection is
pushed). -/
def mutateAddConnection (g : Genome) (h : InnovationHistory) (i j : ℕ) (w : ℚ) :
    Option (Genome × InnovationHistory) :=
  let keys := g.nodes.map Prod.fst
  match keys.get? i, keys.get? j with
  | some fidx, some tidx =>
      match List.lookup tidx g.nodes with
      | none => none
      | some t =>
          if t ≠ NodeType.Input ∧ fidx ≠ tidx then
            let r := h.get_innovation fidx tidx
            some ({ g with connections := g.connections ++
                      [{ from_idx := fidx, to_idx := tidx, weight := w,
                         enabled := true, innovation := r.1 }] }, r.2)
          else some (g, h)
  | _, _ => none

/-- the add-node branch of `Genome::mutate` (lines 193–207).  `k` is the
random draw among the *enabled* connections (`filter(enabled).choose`);
when there is none the pass is skipped.  Faithful to the source: the chosen
connection is disabled, a fresh Hidden node id is allocated and inserted,
two innovation ids are obtained — and NO replacement connection is
appended (the two `push` calls are commented out in the source). -/
def mutateAddNode (g : Genome) (h : InnovationHistory) (k : ℕ) :
    Genome × InnovationHistory :=
  let enabledIdx := ((g.connections.enum.filter (fun p => p.2.enabled)).map Prod.fst)
  match enabledIdx.get? k with
  | none => (g, h)
  | some ci =>
    match g.connections.get? ci with
    | none => (g, h)
    | some c =>
      let conns := g.connections.set ci { c with enabled := false }
      let new_id := h.next_node_id
      let h1 : InnovationHistory :=
        { map := h.map, next_innovation := h.next_innovation,
          next_node_id := h.next_node_id + 1 }
      let nodes' := hmInsert g.nodes new_id NodeType.Hidden
      let r1 := h1.get_innovation c.from_idx new_id
      let r2 := r1.2.get_innovation new_id c.to_idx
      ({ g with nodes := nodes', connections := conns }, r2.2)

end Bobbles

namespace BasicNN

/-- `struct Node` of BasicNNTest/src/main.rs. -/
structure Node where
  id : ℕ
  value : ℚ
  node_type : NodeType
deriving DecidableEq

/-- `Node::compute`: Input nodes keep their value; other nodes store the RAW
incoming sum.  (The sigmoid return value of the Rust `compute` is discarded
by `forward` — the source comments this explicitly — so the sigmoid never
reaches any observable value and does not appear in the model.) -/
def Node.compute (n : Node) (s : ℚ) : Node :=
  if n.node_type = NodeType.Input then n else { n with value := s }

/-- `struct Connection` of BasicNNTest/src/main.rs (no innovation field). -/
structure Conn where
  from_idx : ℕ
  to_idx : ℕ
  weight : ℚ
  enabled : Bool
deriving DecidableEq

/-- `struct Genome` of BasicNNTest/src/main.rs. -/
structure Genome where
  nodes : List Node
  connections : List Conn
deriving DecidableEq

/-- `Genome::add_node`: push a fresh zero-valued node whose id is the current
node count; returns the genome and the new id. -/
def Genome.add_node (g : Genome) (t : NodeType) : Genome × ℕ :=
  ({ g with nodes := g.nodes ++ [{ id := g.nodes.length, value := 0, node_type := t }] },
   g.nodes.length)

/-- `Genome::add_connection`: push a fresh enabled connection. -/
def Genome.add_connection (g : Genome) (f t : ℕ) (w : ℚ) : Genome :=
  { g with connections := g.connections ++
      [{ from_idx := f, to_idx := t, weight := w, enabled := true }] }

/-- step 1 of `Genome::forward`: assign `inputs[ptr]` to each Input node while
`ptr < inputs.len()` (the guard makes short input vectors silently leave the
remaining Input nodes at their previous values). -/
def assignIn (inputs : List ℚ) : List Node → ℕ → List Node
  | [], _ => []
  | n :: ns, ptr =>
    if n.node_type = NodeType.Input ∧ ptr < inputs.length then
      { n with value := inputs.getD ptr 0 } :: assignIn inputs ns (ptr + 1)
    else n :: assignIn inputs ns ptr

/-- the incoming sum of node `i` in step 2 of `forward`: fold over the
connections that are enabled and target `i`, in order.  `none` models the
`nodes[c.from_idx]` out-of-bounds panic on a dangling source index. -/
def incomingSum (conns : List Conn) (nodes : List Node) (i : ℕ) : Option ℚ :=
  (conns.filter (fun c => c.enabled && c.to_idx == i)).foldl
    (fun acc c => acc.bind fun s => (nodes.get? c.from_idx).map fun n => s + c.weight * n.value)
    (some 0)

/-- the body of the `for i in 0..len` loop in step 2 of `forward`: skip Input
nodes, otherwise recompute node `i` from the current values (values of
higher-indexed nodes are still the stale, pre-pass ones). -/
def computeOne (conns : List Conn) (i : ℕ) (nv : List Node) : Option (List Node) :=
  match nv.get? i with
  | none => none
  | some n =>
    if n.node_type = NodeType.Input then some nv
    else (incomingSum conns nv i).map fun s => nv.set i (n.compute s)

/-- step 2 of `forward`: the loop `for i in 0..self.nodes.len()` (the bound
is read once; `List.set` keeps the length unchanged throughout). -/
def computePass (conns : List Conn) (nv : List Node) : Option (List Node) :=
  (List.range nv.length).foldl (fun acc i => acc.bind (computeOne conns i)) (some nv)

/-- `Genome::forward` (lines 79–109). -/
def forward (g : Genome) (inputs : List ℚ) : Option (Genome × List ℚ) :=
  let nv1 := assignIn inputs g.nodes 0
  (computePass g.connections nv1).map fun nv2 =>
    ({ g with nodes := nv2 },
     (nv2.filter (fun n => n.node_type == NodeType.Output)).map Node.value)

/-- `struct NeatConfig`. -/
structure NeatConfig where
  population_size : ℕ
  mutate_weight_chance : ℚ
  new_connection_chance : ℚ
  new_node_chance : ℚ

/-- `struct Neat`. -/
structure Neat where
  population : List Genome
  config : NeatConfig
  generation : ℕ

/-- `Neat::create_initial_genome` with the two random connection weights
made explicit: two Input nodes (ids 0, 1), one Output node (id 2), fully
connected — the result of the `add_node`/`add_connection` sequence of the
source. -/
def create_initial_genome (w1 w2 : ℚ) : Genome :=
  { nodes := [{ id := 0, value := 0, node_type := NodeType.Input },
              { id := 1, value := 0, node_type := NodeType.Input },
              { id := 2, value := 0, node_type := NodeType.Output }],
    connections := [{ from_idx := 0, to_idx := 2, weight := w1, enabled := true },
                    { from_idx := 1, to_idx := 2, weight := w2, enabled := true }] }

/-- one call's worth of random draws for `Neat::mutate`: the three
`random_bool` outcomes, the index/weight draws of each branch. -/
structure MutPlan where
  doWeight : Bool
  wIdx : ℕ
  wDelta : ℚ
  doConn : Bool
  cFrom : ℕ
  cTo : ℕ
  cWeight : ℚ
  doNode : Bool
  nIdx : ℕ

/-- the weight-mutation branch of `Neat::mutate` (lines 154–157): nudge one
randomly chosen connection.  `none` only when the supplied index is outside
the range `random_range(0..len)` draws from (no real execution does that). -/
def mutateStepWeight (p : MutPlan) (g : Genome) : Option Genome :=
  if p.doWeight ∧ g.connections ≠ [] then
    match g.connections.get? p.wIdx with
    | none => none
    | some c =>
        some { g with connections :=
          g.connections.set p.wIdx { c with weight := c.weight + p.wDelta } }
  else some g

/-- the new-connection branch of `Neat::mutate` (lines 160–167): draw two
node indices; the guard of the source accepts the pair iff the two nodes
have *different* node types, and then appends `n1_idx → n2_idx`. -/
def mutateStepConn (p : MutPlan) (g : Genome) : Option Genome :=
  if p.doConn then
    match g.nodes.get? p.cFrom, g.nodes.get? p.cTo with
    | some n1, some n2 =>
        if n1.node_type ≠ n2.node_type then
          some (g.add_connection p.cFrom p.cTo p.cWeight)
        else some g
    | _, _ => none
  else some g

/-- the new-node branch of `Neat::mutate` (lines 170–181): disable the drawn
connection, append a Hidden node, and append the two replacement
connections `from → middle` (weight 1) and `middle → to` (old weight). -/
def mutateStepNode (p : MutPlan) (g : Genome) : Option Genome :=
  if p.doNode ∧ g.connections ≠ [] then
    match g.connections.get? p.nIdx with
    | none => none
    | some c =>
        let g1 : Genome :=
          { g with connections := g.connections.set p.nIdx { c with enabled := false } }
        let r := g1.add_node NodeType.Hidden
        some ((r.1.add_connection c.from_idx r.2 1).add_connection r.2 c.to_idx c.weight)
  else some g

/-- `Neat::mutate` (lines 150–182): the three branches in order. -/
def mutate (p : MutPlan) (g : Genome) : Option Genome :=
  (mutateStepWeight p g).bind fun g1 =>
    (mutateStepConn p g1).bind fun g2 => mutateStepNode p g2

/-- `Neat::reproduce`: clone the parent and mutate the clone. -/
def reproduce (p : MutPlan) (parent : Genome) : Option Genome := mutate p parent

/-- the four XOR cases of `Neat::compute_fitness`, in source order. -/
def xorCases : List (List ℚ × ℚ) :=
  [([0, 0], 0), ([0, 1], 1), ([1, 0], 1), ([1, 1], 0)]

/-- the error-accumulating loop of `compute_fitness`: run `forward` on each
case (each run mutates the genome's node values), read output 0 (or 0.0 when
there is none) and add the squared error. -/
def fitnessRunGo : List (List ℚ × ℚ) → Genome → ℚ → Option (Genome × ℚ)
  | [], g, acc => some (g, acc)
  | c :: cs, g, acc =>
    match forward g c.1 with
    | none => none
    | some gr => fitnessRunGo cs gr.1 (acc + (gr.2.headD 0 - c.2) ^ 2)

def fitnessRun (g : Genome) : Option (Genome × ℚ) := fitnessRunGo xorCases g 0

/-- `Neat::compute_fitness` (lines 184–200): `1 / (1 + total_error)`,
together with the genome as mutated by the four `forward` runs. -/
def compute_fitness (g : Genome) : Option (Genome × ℚ) :=
  (fitnessRun g).map fun ge => (ge.1, 1 / (1 + ge.2))

/-- the roulette scan of `Neat::evolve` (lines 216–224): accumulate the
fitnesses and return the first index whose running total exceeds `pick`. -/
def rouletteGo (pick : ℚ) : List ℚ → ℚ → ℕ → Option ℕ
  | [], _, _ => none
  | f :: fs, current, i =>
    if current + f > pick then some i else rouletteGo pick fs (current + f) (i + 1)

def rouletteSelect (fitnesses : List ℚ) (pick : ℚ) : Option ℕ :=
  rouletteGo pick fitnesses 0 0

/-- the fitness pass of `evolve`
(`self.population.iter_mut().map(compute_fitness).collect()`): returns the
population as mutated by the evaluations together with the fitness list. -/
def fitnessPass : List Genome → Option (List Genome × List ℚ)
  | [] => some ([], [])
  | g :: gs =>
    match compute_fitness g with
    | none => none
    | some gf =>
        (fitnessPass gs).map fun rest => (gf.1 :: rest.1, gf.2 :: rest.2)

/-- the roulette body of one `while`-loop iteration of `evolve`: if the scan
fires, clone-and-mutate the selected genome and push the offspring; if it
does not (the `for` loop falls through), the new population is unchanged. -/
def evolveSelected (pop : List Genome) (fitnesses : List ℚ) (pick : ℚ)
    (plan : MutPlan) (newpop : List Genome) : Option (List Genome) :=
  match rouletteSelect fitnesses pick with
  | some i =>
      ((pop.get? i).bind (reproduce plan)).map fun off => newpop ++ [off]
  | none => some newpop

/-- the `while new_population.len() < population_size` loop of `evolve`.
`fuel` bounds the number of iterations (termination of the source loop is
probabilistic); `picks k` is the k-th `pick` draw, `plans k` the randomness
of the k-th `reproduce`, and `seeds k` the weights of a fallback freshly
seeded genome. -/
def evolveLoop (cfg : NeatConfig) (pop : List Genome) (fitnesses : List ℚ)
    (total : ℚ) (picks : ℕ → ℚ) (plans : ℕ → MutPlan) (seeds : ℕ → ℚ × ℚ) :
    ℕ → ℕ → List Genome → Option (List Genome)
  | 0, _, newpop =>
      if cfg.population_size ≤ newpop.length then some newpop else none
  | fuel + 1, k, newpop =>
    if cfg.population_size ≤ newpop.length then some newpop
    else
      match evolveSelected pop fitnesses (picks k) (plans k) newpop with
      | none => none
      | some np1 =>
          evolveLoop cfg pop fitnesses total picks plans seeds fuel (k + 1)
            (if total ≤ 0 then np1 ++ [create_initial_genome (seeds k).1 (seeds k).2]
             else np1)

/-- `Neat::evolve` (lines 202–231): fitness pass, roulette reproduction
until the configured size is reached, wholesale replacement, generation
increment. -/
def evolve (fuel : ℕ) (picks : ℕ → ℚ) (plans : ℕ → MutPlan) (seeds : ℕ → ℚ × ℚ)
    (st : Neat) : Option Neat :=
  (fitnessPass st.population).bind fun pf =>
    (evolveLoop st.config pf.1 pf.2 pf.2.sum picks plans seeds fuel 0 []).map fun newpop =>
      { st with population := newpop, generation := st.generation + 1 }

end BasicNN

/-! ### Concrete fixtures used by counterexamples and witnesses -/

/-- a minimal seed genome for the bobbles engine (two inputs, one output,
fully connected), with concrete weights; the spec's end-to-end scenario
shape. -/
def bobblesSeed : Bobbles.Genome :=
  { nodes := [(0, NodeType.Input), (1, NodeType.Input), (2, NodeType.Output)],
    connections :=
      [{ from_idx := 0, to_idx := 2, weight := 3/5, enabled := true, innovation := 0 },
       { from_idx := 1, to_idx := 2, weight := -3/10, enabled := true, innovation := 1 }],
    fitness := 0 }

/-- an innovation history consistent with `bobblesSeed`: the two seed edges
recorded, next node id 3. -/
def bobblesHist : Bobbles.InnovationHistory :=
  { map := [((0, 2), 0), ((1, 2), 1)], next_innovation := 2, next_node_id := 3 }

/-- the genome produced from `bobblesSeed` by one add-node mutation (the
random draw picks enabled connection 0). -/
def bobblesSplit : Bobbles.Genome :=
  (Bobbles.mutateAddNode bobblesSeed bobblesHist 0).1

/-- a minimal seed genome for the BasicNN engine with concrete weights. -/
def basicSeed : BasicNN.Genome := BasicNN.create_initial_genome (3/5) (-3/10)

/-- a `MutPlan` that draws nothing. -/
def planNone : BasicNN.MutPlan :=
  { doWeight := false, wIdx := 0, wDelta := 0, doConn := false, cFrom := 0,
    cTo := 0, cWeight := 0, doNode := false, nIdx := 0 }

/-- the genome produced from `BasicNN.create_initial_genome (3/5) (1/2)` by
one add-node mutation splitting connection 0. -/
def basicSplit : Option BasicNN.Genome :=
  BasicNN.mutateStepNode { planNone with doNode := true, nIdx := 0 }
    (BasicNN.create_initial_genome (3/5) (1/2))

/-- the network `compile` produces from `bobblesSeed` (fuel 10). -/
def bobblesNet : Bobbles.NeuralNetwork :=
  { nodes := [{ id := 0, value := 0, incoming := [], node_type := NodeType.Input },
              { id := 1, value := 0, incoming := [], node_type := NodeType.Input },
              { id := 2, value := 0, incoming := [(0, 3/5), (1, -3/10)],
                node_type := NodeType.Output }],
    execution_order := [2],
    inputs_count := 2,
    output_indices := [2] }

/-- `bobblesNet` after one activation with inputs `[1, 0]` under the identity
squash: the Input nodes hold 1 and 0, the Output node 3/5. -/
def bobblesNet1 : Bobbles.NeuralNetwork :=
  { bobblesNet with nodes :=
      [{ id := 0, value := 1, incoming := [], node_type := NodeType.Input },
       { id := 1, value := 0, incoming := [], node_type := NodeType.Input },
       { id := 2, value := 3/5, incoming := [(0, 3/5), (1, -3/10)],
         node_type := NodeType.Output }] }

/-! ### Specification-side predicates about the bobbles compiler -/

namespace Bobbles

/-- the source indices a node reads from. -/
def srcs (n : NodeState) : List ℕ := n.incoming.map Prod.fst

/-- index `j` holds a node that is not an Input node. -/
def NonInputAt (nv : List NodeState) (j : ℕ) : Prop :=
  ∃ n, nv.get? j = some n ∧ n.node_type ≠ NodeType.Input

/-- `Dep nv i j`: the DFS started at `i` reaches `j`, i.e. there is a chain
of `incoming` sources from `i` down to `j` all of whose members are
non-Input nodes (the DFS stops at Input nodes and never schedules them). -/
inductive Dep (nv : List NodeState) : ℕ → ℕ → Prop
  | refl : ∀ i n, nv.get? i = some n → n.node_type ≠ NodeType.Input → Dep nv i i
  | step : ∀ i n j k, nv.get? i = some n → n.node_type ≠ NodeType.Input →
      j ∈ srcs n → Dep nv j k → Dep nv i k

/-- invariant of the DFS state `(visited, order)`:
the two hold the same indices; every scheduled index holds a non-Input node
whose sources all exist; and every scheduled index is preceded in the order
by all of its non-Input sources. -/
structure GoodState (nv : List NodeState) (v o : List ℕ) : Prop where
  mem_iff : ∀ x, x ∈ v ↔ x ∈ o
  nonInput : ∀ x ∈ o, NonInputAt nv x
  srcsExist : ∀ x ∈ o, ∀ n, nv.get? x = some n → ∀ j ∈ srcs n, ∃ m, nv.get? j = some m
  ordered : ∀ k x, o.get? k = some x → ∀ n, nv.get? x = some n →
      ∀ j ∈ srcs n, NonInputAt nv j → j ∈ o.take k

/-- basic evolution of the DFS state `(visited, order)`: visited only grows,
the order is only appended to, and "visited and order hold the same
indices" is preserved. -/
def StateEvolves (st st' : List ℕ × List ℕ) : Prop :=
  (∀ x ∈ st.1, x ∈ st'.1) ∧ st.2 <+: st'.2 ∧
  ((∀ x, x ∈ st.1 ↔ x ∈ st.2) → (∀ x, x ∈ st'.1 ↔ x ∈ st'.2))

/-- what one successful `visit` call guarantees, with no assumption on the
graph: the state evolves, the start node exists and ends up visited unless
it is an Input node, and everything newly visited is a dependency of the
start node. -/
def VisitSpec (nv : List NodeState) (fuel : ℕ) : Prop :=
  ∀ idx st st', visit nv fuel idx st = some st' →
    StateEvolves st st' ∧
    (∃ n, nv.get? idx = some n ∧ (n.node_type = NodeType.Input ∨ idx ∈ st'.1)) ∧
    (∀ y ∈ st'.1, y ∈ st.1 ∨ Dep nv idx y)

/-- the same guarantees for a successful sequence of `visit` calls. -/
def FoldSpec (nv : List NodeState) (fuel : ℕ) : Prop :=
  ∀ js st st', visitFold nv fuel js st = some st' →
    StateEvolves st st' ∧
    (∀ j ∈ js, ∃ n, nv.get? j = some n ∧ (n.node_type = NodeType.Input ∨ j ∈ st'.1)) ∧
    (∀ y ∈ st'.1, y ∈ st.1 ∨ ∃ j ∈ js, Dep nv j y)

/-- an index-level rank function witnessing acyclicity of the compiled
incoming-edge graph: every source of a node has strictly smaller rank. -/
def WFRank (nv : List NodeState) (rk : ℕ → ℕ) : Prop :=
  ∀ i n, nv.get? i = some n → ∀ j ∈ srcs n, rk j < rk i

/-- every source index mentioned by the compiled nodes is in range. -/
def SrcsInRange (nv : List NodeState) : Prop :=
  ∀ i n, nv.get? i = some n → ∀ j ∈ srcs n, j < nv.length

/-- two node lists with identical structure (ids, types, incoming lists),
possibly different values. -/
def SameShape (s t : List NodeState) : Prop :=
  s.length = t.length ∧
  ∀ i a b, s.get? i = some a → t.get? i = some b →
    a.id = b.id ∧ a.incoming = b.incoming ∧ a.node_type = b.node_type

/-- the two node lists agree on the values of all indices satisfying `P`. -/
def AgreeOn (P : ℕ → Prop) (s t : List NodeState) : Prop :=
  ∀ i a b, s.get? i = some a → t.get? i = some b → P i → a.value = b.value

/-- histories reachable in a run: from `InnovationTracker::default()` by
`get_innovation` calls and by the `next_node_id += 1` bumps of the add-node
mutation. -/
inductive Reachable : InnovationHistory → Prop
  | init : Reachable { map := [], next_innovation := 0, next_node_id := 0 }
  | step : ∀ h f t, Reachable h → Reachable (h.get_innovation f t).2
  | bump : ∀ h, Reachable h →
      Reachable { map := h.map, next_innovation := h.next_innovation,
                  next_node_id := h.next_node_id + 1 }

end Bobbles

/-- `basicSeed` as mutated by the four XOR `forward` runs of one
`compute_fitness` call (the node values left behind by the last case). -/
def basicSeedFit : BasicNN.Genome :=
  { nodes := [{ id := 0, value := 1, node_type := NodeType.Input },
              { id := 1, value := 1, node_type := NodeType.Input },
              { id := 2, value := 3/10, node_type := NodeType.Output }],
    connections := basicSeed.connections }

namespace Bobbles

/-- run invariant of the innovation history: every recorded id is below the
`next_innovation` counter, and no two recorded pairs share an id. -/
def HistInv (h : InnovationHistory) : Prop :=
  (∀ p i, lookupPair h.map p = some i → i < h.next_innovation) ∧
  (∀ p q i, lookupPair h.map p = some i → lookupPair h.map q = some i → p = q)

end Bobbles

/-! ### Claim theorems -/

namespace Bobbles

theorem lookupPair_cons (e : (ℕ × ℕ) × ℕ) (es : List ((ℕ × ℕ) × ℕ)) (k : ℕ × ℕ) :
    lookupPair (e :: es) k = if e.1 = k then some e.2 else lookupPair es k := rfl

theorem get_innovation_found (h : InnovationHistory) (f t i : ℕ)
    (hl : lookupPair h.map (f, t) = some i) : h.get_innovation f t = (i, h) := by
  unfold InnovationHistory.get_innovation
  rw [hl]

theorem get_innovation_new (h : InnovationHistory) (f t : ℕ)
    (hl : lookupPair h.map (f, t) = none) :
    h.get_innovation f t =
      (h.next_innovation,
       { map := ((f, t), h.next_innovation) :: h.map,
         next_innovation := h.next_innovation + 1,
         next_node_id := h.next_node_id }) := by
  unfold InnovationHistory.get_innovation
  rw [hl]

theorem lookupPair_after_get (h : InnovationHistory) (f t : ℕ) :
    lookupPair (h.get_innovation f t).2.map (f, t) = some (h.get_innovation f t).1 := by
  cases hl : lookupPair h.map (f, t) with
  | none => rw [get_innovation_new h f t hl]; simp [lookupPair_cons]
  | some id => rw [get_innovation_found h f t id hl]; simpa using hl

theorem histInv_preserved (h : InnovationHistory) (hi : HistInv h) (f t : ℕ) :
    HistInv (h.get_innovation f t).2 := by
  cases hl : lookupPair h.map (f, t) with
  | some id => rw [get_innovation_found h f t id hl]; exact hi
  | none =>
      rw [get_innovation_new h f t hl]
      obtain ⟨hb, hinj⟩ := hi
      constructor
      · intro p i hp
        rw [lookupPair_cons] at hp
        split at hp
        · simp only [Option.some.injEq] at hp
          simp only []
          omega
        · have := hb p i hp
          simp only []
          omega
      · intro p q i hp hq
        rw [lookupPair_cons] at hp hq
        split at hp
        · split at hq
          · rename_i h1 h2
            rw [← h1, ← h2]
          · rename_i h1 h2
            simp only [Option.some.injEq] at hp
            have := hb q i hq
            omega
        · split at hq
          · rename_i h1 h2
            simp only [Option.some.injEq] at hq
            have := hb p i hp
            omega
          · exact hinj p q i hp hq

theorem reachable_histInv (h : InnovationHistory) (hr : Reachable h) : HistInv h := by
  induction hr with
  | init =>
      constructor
      · intro p i hp; simp [lookupPair] at hp
      · intro p q i hp _; simp [lookupPair] at hp
  | step h f t _ ih => exact histInv_preserved h ih f t
  | bump h _ ih => exact ih

end Bobbles

/-- **C4** — confirmed.  For any innovation history reachable in a run (from
the default state by `get_innovation` calls and node-id bumps): calling
`get_innovation` twice with the same pair `(a, b)` and no intervening reset
returns the same id both times, and calling it with a pair `(a, b)` and then
with a distinct pair `(c, d)` returns two distinct ids. -/
theorem claim_C4_innovation_stability (h : Bobbles.InnovationHistory)
    (hr : Bobbles.Reachable h) (a b c d : ℕ) :
    ((h.get_innovation a b).2.get_innovation a b).1 = (h.get_innovation a b).1 ∧
    ((a, b) ≠ (c, d) →
      ((h.get_innovation a b).2.get_innovation c d).1 ≠ (h.get_innovation a b).1) := by
  obtain ⟨hb, hinj⟩ := Bobbles.reachable_histInv h hr
  constructor
  · have hl := Bobbles.lookupPair_after_get h a b
    rw [Bobbles.get_innovation_found _ a b _ hl]
  · intro hne
    have hl := Bobbles.lookupPair_after_get h a b
    set h1 := (h.get_innovation a b).2 with hh1
    set i1 := (h.get_innovation a b).1 with hi1
    have hinv1 : Bobbles.HistInv h1 := Bobbles.histInv_preserved h ⟨hb, hinj⟩ a b
    cases hl2 : Bobbles.lookupPair h1.map (c, d) with
    | some j =>
        rw [Bobbles.get_innovation_found h1 c d j hl2]
        intro hj
        exact hne (hinv1.2 (a, b) (c, d) i1 hl (hj ▸ hl2) |>.symm ▸ rfl)
    | none =>
        rw [Bobbles.get_innovation_new h1 c d hl2]
        have : i1 < h1.next_innovation := hinv1.1 (a, b) i1 hl
        simpa using Nat.ne_of_gt this

/-- **C4 witness** — the stability and distinctness facts instantiated at the
default history with the pairs `(0, 1)` and `(2, 3)`. -/
theorem claim_C4_innovation_stability_witness :
    Bobbles.Reachable { map := [], next_innovation := 0, next_node_id := 0 } ∧
    ((({ map := [], next_innovation := 0, next_node_id := 0 } :
        Bobbles.InnovationHistory).get_innovation 0 1).2.get_innovation 0 1).1 =
      (({ map := [], next_innovation := 0, next_node_id := 0 } :
        Bobbles.InnovationHistory).get_innovation 0 1).1 ∧
    ((({ map := [], next_innovation := 0, next_node_id := 0 } :
        Bobbles.InnovationHistory).get_innovation 0 1).2.get_innovation 2 3).1 ≠
      (({ map := [], next_innovation := 0, next_node_id := 0 } :
        Bobbles.InnovationHistory).get_innovation 0 1).1 :=
  ⟨Bobbles.Reachable.init,
   (claim_C4_innovation_stability _ Bobbles.Reachable.init 0 1 2 3).1,
   (claim_C4_innovation_stability _ Bobbles.Reachable.init 0 1 2 3).2 (by decide)⟩

namespace BasicNN

theorem fitnessRunGo_nonneg (cs : List (List ℚ × ℚ)) :
    ∀ (g : Genome) (acc : ℚ), 0 ≤ acc →
      ∀ r, fitnessRunGo cs g acc = some r → 0 ≤ r.2 := by
  induction cs with
  | nil =>
      intro g acc ha r hr
      simp only [fitnessRunGo, Option.some.injEq] at hr
      rw [← hr]
      exact ha
  | cons c cs ih =>
      intro g acc ha r hr
      simp only [fitnessRunGo] at hr
      cases hf : forward g c.1 with
      | none => rw [hf] at hr; cases hr
      | some gr =>
          rw [hf] at hr
          exact ih gr.1 _ (add_nonneg ha (sq_nonneg _)) r hr

/-- the fitness returned by `compute_fitness` is the reciprocal of one plus a
nonnegative total squared error. -/
theorem compute_fitness_spec (g g' : Genome) (f : ℚ)
    (hcf : compute_fitness g = some (g', f)) :
    ∃ e : ℚ, fitnessRun g = some (g', e) ∧ 0 ≤ e ∧ f = 1 / (1 + e) := by
  unfold compute_fitness at hcf
  cases hr : fitnessRun g with
  | none => rw [hr] at hcf; cases hcf
  | some ge =>
      rw [hr] at hcf
      simp only [Option.map_some', Option.some.injEq, Prod.mk.injEq] at hcf
      obtain ⟨hg, hf⟩ := hcf
      refine ⟨ge.2, ?_, fitnessRunGo_nonneg xorCases g 0 le_rfl ge hr, hf.symm⟩
      rw [← hg]

/-- any fitness produced by `compute_fitness` is strictly positive (shared by
the fitness-bound and population-size arguments). -/
theorem compute_fitness_pos (g g' : Genome) (f : ℚ)
    (hcf : compute_fitness g = some (g', f)) : 0 < f := by
  obtain ⟨e, _, he, hf⟩ := compute_fitness_spec g g' f hcf
  rw [hf]
  exact div_pos one_pos (by linarith)

end BasicNN

/-- **C6** — confirmed.  Whenever `compute_fitness` completes on a genome, the
fitness it returns equals `1 / (1 + e)` where `e` is the total squared error
accumulated by the four XOR cases; `e` is nonnegative, so the fitness is
strictly positive, at most 1, and equal to 1 exactly when `e = 0`. -/
theorem claim_C6_fitness_bounds (g g' : BasicNN.Genome) (f : ℚ)
    (hcf : BasicNN.compute_fitness g = some (g', f)) :
    ∃ e : ℚ, BasicNN.fitnessRun g = some (g', e) ∧ 0 ≤ e ∧
      f = 1 / (1 + e) ∧ 0 < f ∧ f ≤ 1 ∧ (f = 1 ↔ e = 0) := by
  obtain ⟨e, hrun, he, hf⟩ := BasicNN.compute_fitness_spec g g' f hcf
  have h1 : (0 : ℚ) < 1 + e := by linarith
  refine ⟨e, hrun, he, hf, ?_, ?_, ?_⟩
  · rw [hf]; exact div_pos one_pos h1
  · rw [hf, div_le_one h1]; linarith
  · rw [hf, div_eq_iff (ne_of_gt h1)]
    constructor
    · intro h2; linarith
    · intro h2; rw [h2]; ring

/-- **C6 witness** — the fitness facts instantiated at the concrete seed
genome with weights 3/5 and -3/10: its total XOR squared error is 97/50 and
its fitness 50/147 = 1/(1 + 97/50). -/
theorem claim_C6_fitness_bounds_witness :
    ∃ e : ℚ, BasicNN.fitnessRun basicSeed = some (basicSeedFit, e) ∧ 0 ≤ e ∧
      (50/147 : ℚ) = 1 / (1 + e) ∧ 0 < (50/147 : ℚ) ∧ (50/147 : ℚ) ≤ 1 ∧
      ((50/147 : ℚ) = 1 ↔ e = 0) :=
  claim_C6_fitness_bounds basicSeed basicSeedFit (50/147) (by
    simp [basicSeed, basicSeedFit, BasicNN.create_initial_genome,
      BasicNN.compute_fitness, BasicNN.fitnessRun, BasicNN.fitnessRunGo,
      BasicNN.xorCases, BasicNN.forward, BasicNN.assignIn, BasicNN.computePass,
      BasicNN.computeOne, BasicNN.incomingSum, BasicNN.Node.compute, List.range_succ]
    norm_num)

namespace BasicNN

theorem fitnessPass_pos :
    ∀ (pop : List Genome) (pf : List Genome × List ℚ), fitnessPass pop = some pf →
      ∀ f ∈ pf.2, 0 < f := by
  intro pop
  induction pop with
  | nil =>
      intro pf h f hf
      simp only [fitnessPass, Option.some.injEq] at h
      rw [← h] at hf
      simp at hf
  | cons g gs ih =>
      intro pf h f hf
      simp only [fitnessPass] at h
      cases hc : compute_fitness g with
      | none => rw [hc] at h; cases h
      | some gf =>
          rw [hc] at h
          cases hrest : fitnessPass gs with
          | none => rw [hrest] at h; cases h
          | some rest =>
              rw [hrest] at h
              simp only [Option.map_some', Option.some.injEq] at h
              rw [← h] at hf
              simp only [List.mem_cons] at hf
              rcases hf with hf | hf
              · rw [hf]; exact compute_fitness_pos g gf.1 gf.2 hc
              · exact ih rest (by rw [hrest]) f hf

theorem evolveSelected_length (pop : List Genome) (fits : List ℚ) (pick : ℚ)
    (plan : MutPlan) (newpop np1 : List Genome)
    (h : evolveSelected pop fits pick plan newpop = some np1) :
    np1 = newpop ∨ (np1.length = newpop.length + 1 ∧ fits ≠ []) := by
  unfold evolveSelected at h
  cases hsel : rouletteSelect fits pick with
  | none =>
      rw [hsel] at h
      simp only [Option.some.injEq] at h
      exact Or.inl h.symm
  | some i =>
      rw [hsel] at h
      cases hrep : (pop.get? i).bind (reproduce plan) with
      | none =>
          simp only [hrep, Option.map_none'] at h
          exact Option.noConfusion h
      | some off =>
          simp only [hrep, Option.map_some', Option.some.injEq] at h
          refine Or.inr ⟨by rw [← h]; simp, ?_⟩
          intro hnil
          rw [hnil] at hsel
          simp [rouletteSelect, rouletteGo] at hsel

theorem evolveLoop_length (cfg : NeatConfig) (pop : List Genome) (fits : List ℚ)
    (picks : ℕ → ℚ) (plans : ℕ → MutPlan) (seeds : ℕ → ℚ × ℚ)
    (hpos : ∀ f ∈ fits, 0 < f) :
    ∀ (fuel k : ℕ) (newpop : List Genome), newpop.length ≤ cfg.population_size →
      ∀ out, evolveLoop cfg pop fits fits.sum picks plans seeds fuel k newpop = some out →
        out.length = cfg.population_size := by
  intro fuel
  induction fuel with
  | zero =>
      intro k newpop hle out hout
      simp only [evolveLoop] at hout
      split at hout
      · simp only [Option.some.injEq] at hout
        rw [← hout]
        omega
      · cases hout
  | succ fuel ih =>
      intro k newpop hle out hout
      simp only [evolveLoop] at hout
      split at hout
      · rename_i hge
        simp only [Option.some.injEq] at hout
        rw [← hout]
        omega
      · rename_i hlt
        cases hstep : evolveSelected pop fits (picks k) (plans k) newpop with
        | none => rw [hstep] at hout; exact Option.noConfusion hout
        | some np1 =>
            simp only [hstep] at hout
            rcases evolveSelected_length pop fits (picks k) (plans k) newpop np1 hstep with
              heq | hlen
            · by_cases htz : fits.sum ≤ 0
              · rw [if_pos htz] at hout
                refine ih (k + 1) _ ?_ out hout
                rw [heq]
                simp only [List.length_append, List.length_cons, List.length_nil]
                omega
              · rw [if_neg htz] at hout
                refine ih (k + 1) np1 ?_ out hout
                rw [heq]
                omega
            · have htz : ¬ fits.sum ≤ 0 := by
                have := List.sum_pos fits hpos hlen.2
                linarith
              rw [if_neg htz] at hout
              refine ih (k + 1) np1 ?_ out hout
              omega

end BasicNN

/-- **C9** — confirmed.  Whenever one `evolve` call completes (the source
loop's termination is probabilistic, modelled by the fuel), starting from a
population whose size equals the configured `population_size`, it replaces
the genome collection by one of exactly `population_size` genomes and
increments the generation counter by exactly one.  (Each loop iteration
pushes at most one genome: the zero-total-fitness fallback can only fire on
an empty fitness list, because every fitness `compute_fitness` produces is
strictly positive.) -/
theorem claim_C9_evolve_size_and_generation
    (fuel : ℕ) (picks : ℕ → ℚ) (plans : ℕ → BasicNN.MutPlan) (seeds : ℕ → ℚ × ℚ)
    (st st' : BasicNN.Neat)
    (hsize : st.population.length = st.config.population_size)
    (hev : BasicNN.evolve fuel picks plans seeds st = some st') :
    st'.population.length = st.config.population_size ∧
    st'.generation = st.generation + 1 := by
  clear hsize
  unfold BasicNN.evolve at hev
  cases hfp : BasicNN.fitnessPass st.population with
  | none => rw [hfp] at hev; exact Option.noConfusion hev
  | some pf =>
      rw [hfp] at hev
      simp only [Option.some_bind'] at hev
      cases hloop : BasicNN.evolveLoop st.config pf.1 pf.2 pf.2.sum picks plans seeds
          fuel 0 [] with
      | none => rw [hloop] at hev; exact Option.noConfusion hev
      | some newpop =>
          rw [hloop] at hev
          simp only [Option.map_some', Option.some.injEq] at hev
          have hlen := BasicNN.evolveLoop_length st.config pf.1 pf.2 picks plans seeds
            (BasicNN.fitnessPass_pos st.population pf hfp) fuel 0 [] (by simp) newpop hloop
          rw [← hev]
          exact ⟨hlen, rfl⟩

/-- **C9 witness** — a concrete complete `evolve` run: population size 1,
the seed genome, zero picks, draw-nothing mutation plans; the result has
exactly 1 genome and generation 1 = 0 + 1. -/
theorem claim_C9_evolve_size_and_generation_witness :
    ({ population := [basicSeedFit], config := ⟨1, 0, 0, 0⟩, generation := 1 } :
        BasicNN.Neat).population.length =
      ({ population := [basicSeed], config := ⟨1, 0, 0, 0⟩, generation := 0 } :
        BasicNN.Neat).config.population_size ∧
    ({ population := [basicSeedFit], config := ⟨1, 0, 0, 0⟩, generation := 1 } :
        BasicNN.Neat).generation =
      ({ population := [basicSeed], config := ⟨1, 0, 0, 0⟩, generation := 0 } :
        BasicNN.Neat).generation + 1 :=
  claim_C9_evolve_size_and_generation 2 (fun _ => 0) (fun _ => planNone)
    (fun _ => (0, 0)) _ _ rfl (by
      simp [BasicNN.evolve, BasicNN.fitnessPass, BasicNN.compute_fitness,
        BasicNN.fitnessRun, BasicNN.fitnessRunGo, BasicNN.xorCases, BasicNN.forward,
        BasicNN.assignIn, BasicNN.computePass, BasicNN.computeOne, BasicNN.incomingSum,
        BasicNN.Node.compute, List.range_succ, BasicNN.evolveLoop, BasicNN.evolveSelected,
        BasicNN.rouletteSelect, BasicNN.rouletteGo, BasicNN.reproduce, BasicNN.mutate,
        BasicNN.mutateStepWeight, BasicNN.mutateStepConn, BasicNN.mutateStepNode,
        planNone, basicSeed, basicSeedFit, BasicNN.create_initial_genome]
      norm_num)

/-- **C1** — evidence of the code bug.  Evaluating the add-node mutation at a
concrete genome (`bobblesSeed`, two inputs, one output, enabled connection
`0→2` of weight 3/5 chosen by the draw): the bobbles engine disables the
chosen connection and inserts the fresh Hidden node 3, but appends NO
replacement connection — neither `0→3` with weight 1 nor `3→2` with weight
3/5 exists afterwards (the two `push` calls are commented out in the
source, directly under the comment announcing them).  The BasicNN engine
performs the split exactly as the claim states. -/
theorem claim_C1_addNode_split_dropped :
    bobblesSplit.connections =
      [{ from_idx := 0, to_idx := 2, weight := 3/5, enabled := false, innovation := 0 },
       { from_idx := 1, to_idx := 2, weight := -3/10, enabled := true, innovation := 1 }] ∧
    bobblesSplit.nodes =
      [(0, NodeType.Input), (1, NodeType.Input), (2, NodeType.Output),
       (3, NodeType.Hidden)] ∧
    (¬ ∃ c ∈ bobblesSplit.connections, c.to_idx = 3 ∨ c.from_idx = 3) ∧
    basicSplit = some
      { nodes := [{ id := 0, value := 0, node_type := NodeType.Input },
                  { id := 1, value := 0, node_type := NodeType.Input },
                  { id := 2, value := 0, node_type := NodeType.Output },
                  { id := 3, value := 0, node_type := NodeType.Hidden }],
        connections :=
          [{ from_idx := 0, to_idx := 2, weight := 3/5, enabled := false },
           { from_idx := 1, to_idx := 2, weight := 1/2, enabled := true },
           { from_idx := 0, to_idx := 3, weight := 1, enabled := true },
           { from_idx := 3, to_idx := 2, weight := 3/5, enabled := true }] } := by
  refine ⟨?_, by decide, by decide, ?_⟩
  · simp [bobblesSplit, bobblesSeed, bobblesHist, Bobbles.mutateAddNode,
      Bobbles.hmInsert, Bobbles.InnovationHistory.get_innovation, Bobbles.lookupPair,
      List.enum, List.enumFrom]
  · simp [basicSplit, planNone, BasicNN.mutateStepNode, BasicNN.create_initial_genome,
      BasicNN.Genome.add_node, BasicNN.Genome.add_connection]

/-- **C2** — counterexample to the claim as stated.  In the BasicNN engine
the add-connection guard accepts any pair of nodes with *different* node
types: drawing `n1 = 2` (the Output node) and `n2 = 0` (an Input node) on
the seed genome is accepted, and a connection `2 → 0` whose target is an
Input node is appended — the claim says such a pair must be rejected with
no connection added. -/
theorem claim_C2_addConnection_guard_cex :
    BasicNN.mutateStepConn
        { planNone with doConn := true, cFrom := 2, cTo := 0, cWeight := 1/4 }
        basicSeed = some (basicSeed.add_connection 2 0 (1/4)) ∧
    (basicSeed.nodes.get? 0).map BasicNN.Node.node_type = some NodeType.Input ∧
    (basicSeed.add_connection 2 0 (1/4)).connections.length =
      basicSeed.connections.length + 1 := by
  refine ⟨?_, by decide, by decide⟩
  simp [planNone, basicSeed, BasicNN.mutateStepConn, BasicNN.create_initial_genome,
    BasicNN.Genome.add_connection]

/-- **C2 amended** — the rejection conditions as the two sources actually
implement them.  In the bobbles engine a drawn pair is rejected (the genome
and history are unchanged) iff the target node is an Input node or the two
drawn keys are identical, and on acceptance exactly one new enabled
connection with the fresh weight and a tracker-supplied innovation id is
appended.  In the BasicNN engine the guard instead rejects iff the two
drawn nodes have the same node type, and on acceptance appends exactly one
new enabled connection with the fresh weight. -/
theorem claim_C2_addConnection_guard_amended :
    (∀ (g : Bobbles.Genome) (h : Bobbles.InnovationHistory) (i j : ℕ) (w : ℚ)
       (fidx tidx : ℕ) (t : NodeType),
       (g.nodes.map Prod.fst).get? i = some fidx →
       (g.nodes.map Prod.fst).get? j = some tidx →
       List.lookup tidx g.nodes = some t →
       ((t = NodeType.Input ∨ fidx = tidx →
          Bobbles.mutateAddConnection g h i j w = some (g, h)) ∧
        (t ≠ NodeType.Input ∧ fidx ≠ tidx →
          Bobbles.mutateAddConnection g h i j w =
            some ({ g with connections := g.connections ++
                [{ from_idx := fidx, to_idx := tidx, weight := w, enabled := true,
                   innovation := (h.get_innovation fidx tidx).1 }] },
              (h.get_innovation fidx tidx).2)))) ∧
    (∀ (g : BasicNN.Genome) (p : BasicNN.MutPlan) (n1 n2 : BasicNN.Node),
       p.doConn = true →
       g.nodes.get? p.cFrom = some n1 →
       g.nodes.get? p.cTo = some n2 →
       ((n1.node_type = n2.node_type → BasicNN.mutateStepConn p g = some g) ∧
        (n1.node_type ≠ n2.node_type →
          BasicNN.mutateStepConn p g =
            some (g.add_connection p.cFrom p.cTo p.cWeight)))) := by
  constructor
  · intro g h i j w fidx tidx t h1 h2 h3
    unfold Bobbles.mutateAddConnection
    simp only [h1, h2, h3]
    constructor
    · intro hrej
      rw [if_neg]
      tauto
    · intro hacc
      rw [if_pos hacc]
  · intro g p n1 n2 hd h1 h2
    unfold BasicNN.mutateStepConn
    simp only [hd, if_true, h1, h2]
    constructor
    · intro hsame
      rw [if_neg]
      simp [hsame]
    · intro hdiff
      rw [if_pos hdiff]

/-- **C2 amended witness** — the two guards exercised concretely: the bobbles
engine accepts Input-node 0 → Output-node 2 on the seed genome and appends
exactly that connection; the BasicNN engine rejects the pair of the two
Input nodes 0 and 1 (same node type), leaving the genome unchanged. -/
theorem claim_C2_addConnection_guard_amended_witness :
    Bobbles.mutateAddConnection bobblesSeed bobblesHist 0 2 (1/4) =
      some ({ bobblesSeed with connections := bobblesSeed.connections ++
          [{ from_idx := 0, to_idx := 2, weight := 1/4, enabled := true,
             innovation := (bobblesHist.get_innovation 0 2).1 }] },
        (bobblesHist.get_innovation 0 2).2) ∧
    BasicNN.mutateStepConn
        { planNone with doConn := true, cFrom := 0, cTo := 1, cWeight := 0 }
        basicSeed = some basicSeed :=
  ⟨(claim_C2_addConnection_guard_amended.1 bobblesSeed bobblesHist 0 2 (1/4) 0 2
      NodeType.Output (by decide) (by decide) (by decide)).2 (by decide),
   (claim_C2_addConnection_guard_amended.2 basicSeed
      { planNone with doConn := true, cFrom := 0, cTo := 1, cWeight := 0 }
      { id := 0, value := 0, node_type := NodeType.Input }
      { id := 1, value := 0, node_type := NodeType.Input }
      rfl (by simp [basicSeed, BasicNN.create_initial_genome])
      (by simp [basicSeed, BasicNN.create_initial_genome])).1 (by decide)⟩

/-- **C3** — counterexample to the claim as stated.  `bobblesSplit` is
produced from the minimal seed genome by one add-node mutation, so it is a
genome "produced by a sequence of mutations from the minimal seed genome";
its node 3 is a (non-Input) Hidden node, yet `compile` succeeds with
`execution_order = [2]`, which does not contain 3: the execution order only
schedules nodes some Output node depends on. -/
theorem claim_C3_compile_misses_node_cex :
    (Bobbles.compile 10 bobblesSplit).map Bobbles.NeuralNetwork.execution_order
      = some [2] ∧
    bobblesSplit.nodes.get? 3 = some (3, NodeType.Hidden) ∧
    (3 : ℕ) ∉ ([2] : List ℕ) := by
  refine ⟨by decide, by decide, by decide⟩

/-- **C5** — evidence of the code bug (the code contradicts the declared
contract).  Both engines accept length-mismatched input vectors silently:
the BasicNN `forward` runs to completion on the empty input vector (its two
Input nodes keep their stale values, here 0) and returns an output; the
bobbles `activate` runs to completion on a 3-element input vector although
`inputs_count = 2`, silently ignoring the extra element.  Neither fails. -/
theorem claim_C5_silent_length_mismatch :
    (BasicNN.forward basicSeed []).map Prod.snd = some [0] ∧
    (basicSeed.nodes.filter (fun n => n.node_type == NodeType.Input)).length = 2 ∧
    ((Bobbles.compile 10 bobblesSeed).bind
        (fun nw => Bobbles.activate (fun x => x) nw [1, 0, 7])).map Prod.snd
      = some [3/5] ∧
    (Bobbles.compile 10 bobblesSeed).map Bobbles.NeuralNetwork.inputs_count
      = some 2 := by
  refine ⟨?_, by decide, ?_, by decide⟩
  · simp [basicSeed, BasicNN.create_initial_genome, BasicNN.forward,
      BasicNN.assignIn, BasicNN.computePass, BasicNN.computeOne, BasicNN.incomingSum,
      BasicNN.Node.compute, List.range_succ]
  · simp [bobblesSeed, Bobbles.compile, Bobbles.addEdges, Bobbles.initNodes,
      Bobbles.idToIdx, Bobbles.visitFold, Bobbles.visit, Bobbles.outputIndices,
      Bobbles.outputIndicesFrom, Bobbles.activate, Bobbles.setInputs, Bobbles.runOrder,
      Bobbles.stepNode, Bobbles.weightedSum, Bobbles.collectOut]

/-- **C7** — confirmed.  The roulette scan used by `evolve` (accumulate the
fitnesses, return the first index whose running total exceeds `pick`)
selects index 3 on the fitness list `[0, 0, 0, 10]` with
`pick = 9.9999`. -/
theorem claim_C7_roulette_picks_index_3 :
    BasicNN.rouletteSelect [0, 0, 0, 10] (99999/10000) = some 3 := by
  norm_num [BasicNN.rouletteSelect, BasicNN.rouletteGo]

/-- **C8** — counterexample to the claim as stated.  In the BasicNN engine
`forward` is not a pure function of the inputs: on the genome obtained by
one add-node split (no mutation happens between the two calls), two
successive calls with the identical input vector `[1, 1]` return `[1/2]`
and then `[11/10]` — the first call reads the hidden node's stale value 0,
writes 1 into it, and the second call reads that 1. -/
theorem claim_C8_forward_impure_cex :
    (basicSplit.bind fun g1 =>
        (BasicNN.forward g1 [1, 1]).bind fun r1 =>
          (BasicNN.forward r1.1 [1, 1]).map fun r2 => (r1.2, r2.2))
      = some ([1/2], [11/10]) ∧
    ([1/2] : List ℚ) ≠ ([11/10] : List ℚ) := by
  constructor
  · simp [basicSplit, planNone, BasicNN.mutateStepNode, BasicNN.create_initial_genome,
      BasicNN.Genome.add_node, BasicNN.Genome.add_connection, BasicNN.forward,
      BasicNN.assignIn, BasicNN.computePass, BasicNN.computeOne, BasicNN.incomingSum,
      BasicNN.Node.compute, List.range_succ]
    norm_num
  · norm_num

namespace Bobbles

variable {nv : List NodeState}

theorem visit_zero (idx : ℕ) (st : List ℕ × List ℕ) : visit nv 0 idx st = none := rfl

theorem visit_succ (fuel : ℕ) (idx : ℕ) (st : List ℕ × List ℕ) :
    visit nv (fuel + 1) idx st =
      match nv.get? idx with
      | none => none
      | some n =>
        if idx ∈ st.1 ∨ n.node_type = NodeType.Input then some st
        else
          match visitFold nv fuel (srcs n) st with
          | none => none
          | some st' => some (idx :: st'.1, st'.2 ++ [idx]) := by
  cases st
  rfl

theorem visitFold_nil (fuel : ℕ) (st : List ℕ × List ℕ) :
    visitFold nv fuel [] st = some st := rfl

theorem foldl_visit_none (fuel : ℕ) (js : List ℕ) :
    js.foldl (fun acc j => acc.bind (visit nv fuel j)) none = none := by
  induction js with
  | nil => rfl
  | cons j js ih => simpa [List.foldl_cons] using ih

theorem visitFold_cons (fuel : ℕ) (j : ℕ) (js : List ℕ) (st : List ℕ × List ℕ) :
    visitFold nv fuel (j :: js) st =
      match visit nv fuel j st with
      | none => none
      | some st1 => visitFold nv fuel js st1 := by
  unfold visitFold
  rw [List.foldl_cons]
  cases h : visit nv fuel j st with
  | none => simp [h, foldl_visit_none]
  | some st1 => simp [h]

theorem stateEvolves_refl (st : List ℕ × List ℕ) : StateEvolves st st :=
  ⟨fun _ hx => hx, List.prefix_refl _, fun h => h⟩

theorem stateEvolves_trans {a b c : List ℕ × List ℕ}
    (h1 : StateEvolves a b) (h2 : StateEvolves b c) : StateEvolves a c :=
  ⟨fun x hx => h2.1 x (h1.1 x hx), h1.2.1.trans h2.2.1, fun h => h2.2.2 (h1.2.2 h)⟩

theorem visit_basic (nv : List NodeState) :
    ∀ fuel : ℕ, VisitSpec nv fuel ∧ FoldSpec nv fuel := by
  intro fuel
  induction fuel with
  | zero =>
      constructor
      · intro idx st st' h
        rw [visit_zero] at h
        exact Option.noConfusion h
      · intro js
        induction js with
        | nil =>
            intro st st' h
            rw [visitFold_nil] at h
            injection h with h
            subst h
            exact ⟨stateEvolves_refl st, by simp, fun y hy => Or.inl hy⟩
        | cons j js ihj =>
            intro st st' h
            rw [visitFold_cons, visit_zero] at h
            exact Option.noConfusion h
  | succ fuel ih =>
      have hv : VisitSpec nv (fuel + 1) := by
        intro idx st st' h
        rw [visit_succ] at h
        cases hg : nv.get? idx with
        | none => rw [hg] at h; exact Option.noConfusion h
        | some n =>
            simp only [hg] at h
            by_cases hskip : idx ∈ st.1 ∨ n.node_type = NodeType.Input
            · rw [if_pos hskip] at h
              injection h with h
              subst h
              refine ⟨stateEvolves_refl st, ⟨n, rfl, ?_⟩, fun y hy => Or.inl hy⟩
              tauto
            · rw [if_neg hskip] at h
              push_neg at hskip
              obtain ⟨hnv, hni⟩ := hskip
              cases hfold : visitFold nv fuel (srcs n) st with
              | none => rw [hfold] at h; exact Option.noConfusion h
              | some stc =>
                  simp only [hfold] at h
                  injection h with h
                  subst h
                  obtain ⟨hev, _, hsound⟩ := (ih.2) (srcs n) st stc hfold
                  refine ⟨?_, ⟨n, rfl, Or.inr (List.mem_cons_self _ _)⟩, ?_⟩
                  · refine ⟨fun x hx => List.mem_cons_of_mem _ (hev.1 x hx),
                      hev.2.1.trans (List.prefix_append _ _), ?_⟩
                    intro hiff x
                    have hc := hev.2.2 hiff
                    simp only [List.mem_cons, List.mem_append, List.mem_singleton, hc x]
                    tauto
                  · intro y hy
                    rcases List.mem_cons.mp hy with hy | hy
                    · subst hy
                      exact Or.inr (Dep.refl y n hg hni)
                    · rcases hsound y hy with hy2 | ⟨j, hj, hd⟩
                      · exact Or.inl hy2
                      · exact Or.inr (Dep.step idx n j y hg hni hj hd)
      refine ⟨hv, ?_⟩
      intro js
      induction js with
      | nil =>
          intro st st' h
          rw [visitFold_nil] at h
          injection h with h
          subst h
          exact ⟨stateEvolves_refl st, by simp, fun y hy => Or.inl hy⟩
      | cons j js ihj =>
          intro st st' h
          rw [visitFold_cons] at h
          cases h1 : visit nv (fuel + 1) j st with
          | none => rw [h1] at h; exact Option.noConfusion h
          | some st1 =>
              simp only [h1] at h
              obtain ⟨hev1, hafter1, hsound1⟩ := hv j st st1 h1
              obtain ⟨hev2, hafter2, hsound2⟩ := ihj st1 st' h
              refine ⟨stateEvolves_trans hev1 hev2, ?_, ?_⟩
              · intro j2 hj2
                rcases List.mem_cons.mp hj2 with hj2 | hj2
                · subst hj2
                  obtain ⟨n, hn, hcase⟩ := hafter1
                  refine ⟨n, hn, ?_⟩
                  rcases hcase with hc | hc
                  · exact Or.inl hc
                  · exact Or.inr (hev2.1 j2 hc)
                · exact hafter2 j2 hj2
              · intro y hy
                rcases hsound2 y hy with hy2 | ⟨j2, hj2, hd⟩
                · rcases hsound1 y hy2 with hy3 | hd
                  · exact Or.inl hy3
                  · exact Or.inr ⟨j, List.mem_cons_self _ _, hd⟩
                · exact Or.inr ⟨j2, List.mem_cons_of_mem _ hj2, hd⟩

end Bobbles

namespace Bobbles

theorem good_nil (nv : List NodeState) : GoodState nv [] [] := by
  refine ⟨by simp, by simp, by simp, ?_⟩
  intro k x hx
  simp at hx

theorem dep_head {nv : List NodeState} {a b : ℕ} (h : Dep nv a b) : NonInputAt nv a := by
  cases h with
  | refl i n hg hni => exact ⟨n, hg, hni⟩
  | step i n j k hg hni _ _ => exact ⟨n, hg, hni⟩

theorem good_closed {nv : List NodeState} {v o : List ℕ} (hg : GoodState nv v o) :
    ∀ x y, Dep nv x y → x ∈ o → y ∈ o := by
  intro x y hd
  induction hd with
  | refl i n _ _ => exact fun h => h
  | step i n j k hgn hni hj hd ih =>
      intro hio
      obtain ⟨kk, hkk⟩ := List.mem_iff_get?.mp hio
      have hjo := hg.ordered kk i hkk n hgn j hj (dep_head hd)
      exact ih (List.take_subset _ _ hjo)

theorem visit_good (nv : List NodeState) :
    ∀ fuel : ℕ,
      (∀ idx st st', visit nv fuel idx st = some st' →
          GoodState nv st.1 st.2 → GoodState nv st'.1 st'.2) ∧
      (∀ js st st', visitFold nv fuel js st = some st' →
          GoodState nv st.1 st.2 → GoodState nv st'.1 st'.2) := by
  intro fuel
  induction fuel with
  | zero =>
      constructor
      · intro idx st st' h
        rw [visit_zero] at h
        exact Option.noConfusion h
      · intro js
        induction js with
        | nil =>
            intro st st' h hg
            rw [visitFold_nil] at h
            injection h with h
            subst h
            exact hg
        | cons j js ihj =>
            intro st st' h
            rw [visitFold_cons, visit_zero] at h
            exact Option.noConfusion h
  | succ fuel ih =>
      have hv : ∀ idx st st', visit nv (fuel + 1) idx st = some st' →
          GoodState nv st.1 st.2 → GoodState nv st'.1 st'.2 := by
        intro idx st st' h hg
        rw [visit_succ] at h
        cases hgi : nv.get? idx with
        | none => rw [hgi] at h; exact Option.noConfusion h
        | some n =>
            simp only [hgi] at h
            by_cases hskip : idx ∈ st.1 ∨ n.node_type = NodeType.Input
            · rw [if_pos hskip] at h
              injection h with h
              subst h
              exact hg
            · rw [if_neg hskip] at h
              push_neg at hskip
              obtain ⟨hnv, hni⟩ := hskip
              cases hfold : visitFold nv fuel (srcs n) st with
              | none => rw [hfold] at h; exact Option.noConfusion h
              | some stc =>
                  simp only [hfold] at h
                  injection h with h
                  subst h
                  have hgc := (ih.2) (srcs n) st stc hfold hg
                  obtain ⟨hev, hafter, _⟩ := (visit_basic nv fuel).2 (srcs n) st stc hfold
                  constructor
                  · -- mem_iff
                    intro x
                    have hc := hgc.mem_iff x
                    simp only [List.mem_cons, List.mem_append, List.mem_singleton, hc]
                    tauto
                  · -- nonInput
                    intro x hx
                    rcases List.mem_append.mp hx with hx | hx
                    · exact hgc.nonInput x hx
                    · rw [List.mem_singleton.mp hx]
                      exact ⟨n, hgi, hni⟩
                  · -- srcsExist
                    intro x hx m hm j hj
                    rcases List.mem_append.mp hx with hx | hx
                    · exact hgc.srcsExist x hx m hm j hj
                    · rw [List.mem_singleton.mp hx] at hm
                      rw [hm] at hgi
                      injection hgi with hgi
                      subst hgi
                      obtain ⟨n2, hn2, _⟩ := hafter j hj
                      exact ⟨n2, hn2⟩
                  · -- ordered
                    intro k x hkx m hm j hj hjni
                    by_cases hk : k < stc.2.length
                    · rw [List.get?_append hk] at hkx
                      rw [List.take_append_of_le_length (Nat.le_of_lt hk)]
                      exact hgc.ordered k x hkx m hm j hj hjni
                    · have hk2 : k = stc.2.length := by
                        by_contra hne
                        have : stc.2.length + 1 ≤ k := by omega
                        rw [List.get?_append_right (by omega)] at hkx
                        have : k - stc.2.length ≥ 1 := by omega
                        rcases Nat.exists_eq_add_of_le this with ⟨d, hd⟩
                        rw [hd, Nat.add_comm] at hkx
                        simp at hkx
                      subst hk2
                      rw [List.get?_append_right (le_refl _)] at hkx
                      simp at hkx
                      subst hkx
                      rw [hm] at hgi
                      injection hgi with hgi
                      subst hgi
                      rw [List.take_append_of_le_length (le_refl _)]
                      simp only [List.take_length]
                      obtain ⟨n2, hn2, hcase⟩ := hafter j hj
                      obtain ⟨m2, hm2, hm2ni⟩ := hjni
                      rw [hn2] at hm2
                      injection hm2 with hm2
                      subst hm2
                      rcases hcase with hc | hc
                      · exact absurd hc hm2ni
                      · exact (hgc.mem_iff j).mp hc
      refine ⟨hv, ?_⟩
      intro js
      induction js with
      | nil =>
          intro st st' h hg
          rw [visitFold_nil] at h
          injection h with h
          subst h
          exact hg
      | cons j js ihj =>
          intro st st' h hg
          rw [visitFold_cons] at h
          cases h1 : visit nv (fuel + 1) j st with
          | none => rw [h1] at h; exact Option.noConfusion h
          | some st1 =>
              simp only [h1] at h
              exact ihj st1 st' h (hv j st st1 h1 hg)

end Bobbles

namespace Bobbles

theorem dep_rank {nv : List NodeState} {rk : ℕ → ℕ} (hw : WFRank nv rk)
    {a b : ℕ} (h : Dep nv a b) : rk b ≤ rk a := by
  induction h with
  | refl i n _ _ => exact le_refl _
  | step i n j k hg _ hj _ ih => exact ih.trans (Nat.le_of_lt (hw i n hg j hj))

theorem visit_complete (nv : List NodeState) :
    ∀ fuel : ℕ,
      (∀ idx st st', visit nv fuel idx st = some st' → GoodState nv st.1 st.2 →
          ∀ y, Dep nv idx y → y ∈ st'.1) ∧
      (∀ js st st', visitFold nv fuel js st = some st' → GoodState nv st.1 st.2 →
          ∀ j ∈ js, ∀ y, Dep nv j y → y ∈ st'.1) := by
  intro fuel
  induction fuel with
  | zero =>
      constructor
      · intro idx st st' h
        rw [visit_zero] at h
        exact Option.noConfusion h
      · intro js
        induction js with
        | nil => intro st st' h hg j hj; simp at hj
        | cons j js ihj =>
            intro st st' h
            rw [visitFold_cons, visit_zero] at h
            exact Option.noConfusion h
  | succ fuel ih =>
      have hv : ∀ idx st st', visit nv (fuel + 1) idx st = some st' →
          GoodState nv st.1 st.2 → ∀ y, Dep nv idx y → y ∈ st'.1 := by
        intro idx st st' h hg y hd
        rw [visit_succ] at h
        cases hgi : nv.get? idx with
        | none => rw [hgi] at h; exact Option.noConfusion h
        | some n =>
            simp only [hgi] at h
            by_cases hskip : idx ∈ st.1 ∨ n.node_type = NodeType.Input
            · rw [if_pos hskip] at h
              injection h with h
              subst h
              rcases hskip with hin | hinp
              · have hio : idx ∈ st.2 := (hg.mem_iff idx).mp hin
                have := good_closed hg idx y hd hio
                exact (hg.mem_iff y).mpr this
              · obtain ⟨m, hm, hmni⟩ := dep_head hd
                rw [hgi] at hm
                injection hm with hm
                subst hm
                exact absurd hinp hmni
            · rw [if_neg hskip] at h
              push_neg at hskip
              obtain ⟨hnv, hni⟩ := hskip
              cases hfold : visitFold nv fuel (srcs n) st with
              | none => rw [hfold] at h; exact Option.noConfusion h
              | some stc =>
                  simp only [hfold] at h
                  injection h with h
                  subst h
                  cases hd with
                  | refl i n2 hg2 hni2 => exact List.mem_cons_self _ _
                  | step i n2 j y hg2 hni2 hj hdj =>
                      rw [hgi] at hg2
                      injection hg2 with hg2
                      subst hg2
                      exact List.mem_cons_of_mem _
                        ((ih.2) (srcs n) st stc hfold hg j hj y hdj)
      refine ⟨hv, ?_⟩
      intro js
      induction js with
      | nil => intro st st' h hg j hj; simp at hj
      | cons j js ihj =>
          intro st st' h hg j2 hj2 y hd
          rw [visitFold_cons] at h
          cases h1 : visit nv (fuel + 1) j st with
          | none => rw [h1] at h; exact Option.noConfusion h
          | some st1 =>
              simp only [h1] at h
              rcases List.mem_cons.mp hj2 with hj2 | hj2
              · subst hj2
                have hy1 := hv j2 st st1 h1 hg y hd
                exact ((visit_basic nv (fuel + 1)).2 js st1 st' h).1.1 y hy1
              · exact ihj st1 st' h ((visit_good nv (fuel + 1)).1 j st st1 h1 hg) j2 hj2 y hd

theorem visit_nodup (nv : List NodeState) (rk : ℕ → ℕ) (hw : WFRank nv rk) :
    ∀ fuel : ℕ,
      (∀ idx st st', visit nv fuel idx st = some st' →
          (∀ x, x ∈ st.1 ↔ x ∈ st.2) → st.2.Nodup → st'.2.Nodup) ∧
      (∀ js st st', visitFold nv fuel js st = some st' →
          (∀ x, x ∈ st.1 ↔ x ∈ st.2) → st.2.Nodup → st'.2.Nodup) := by
  intro fuel
  induction fuel with
  | zero =>
      constructor
      · intro idx st st' h
        rw [visit_zero] at h
        exact Option.noConfusion h
      · intro js
        induction js with
        | nil =>
            intro st st' h hiff hnd
            rw [visitFold_nil] at h
            injection h with h
            subst h
            exact hnd
        | cons j js ihj =>
            intro st st' h
            rw [visitFold_cons, visit_zero] at h
            exact Option.noConfusion h
  | succ fuel ih =>
      have hv : ∀ idx st st', visit nv (fuel + 1) idx st = some st' →
          (∀ x, x ∈ st.1 ↔ x ∈ st.2) → st.2.Nodup → st'.2.Nodup := by
        intro idx st st' h hiff hnd
        rw [visit_succ] at h
        cases hgi : nv.get? idx with
        | none => rw [hgi] at h; exact Option.noConfusion h
        | some n =>
            simp only [hgi] at h
            by_cases hskip : idx ∈ st.1 ∨ n.node_type = NodeType.Input
            · rw [if_pos hskip] at h
              injection h with h
              subst h
              exact hnd
            · rw [if_neg hskip] at h
              push_neg at hskip
              obtain ⟨hnv, hni⟩ := hskip
              cases hfold : visitFold nv fuel (srcs n) st with
              | none => rw [hfold] at h; exact Option.noConfusion h
              | some stc =>
                  simp only [hfold] at h
                  injection h with h
                  subst h
                  obtain ⟨hev, _, hsound⟩ := (visit_basic nv fuel).2 (srcs n) st stc hfold
                  have hndc := (ih.2) (srcs n) st stc hfold hiff hnd
                  have hiffc := hev.2.2 hiff
                  rw [List.nodup_append]
                  refine ⟨hndc, List.nodup_singleton _, ?_⟩
                  intro a ha hb
                  rw [List.mem_singleton] at hb
                  subst hb
                  have hav : a ∈ stc.1 := (hiffc a).mpr ha
                  rcases hsound a hav with hin | ⟨j, hj, hd⟩
                  · exact hnv hin
                  · have h1 : rk a ≤ rk j := dep_rank hw hd
                    have h2 : rk j < rk a := hw a n hgi j hj
                    omega
      refine ⟨hv, ?_⟩
      intro js
      induction js with
      | nil =>
          intro st st' h hiff hnd
          rw [visitFold_nil] at h
          injection h with h
          subst h
          exact hnd
      | cons j js ihj =>
          intro st st' h hiff hnd
          rw [visitFold_cons] at h
          cases h1 : visit nv (fuel + 1) j st with
          | none => rw [h1] at h; exact Option.noConfusion h
          | some st1 =>
              simp only [h1] at h
              obtain ⟨hev1, _, _⟩ := (visit_basic nv (fuel + 1)).1 j st st1 h1
              exact ihj st1 st' h (hev1.2.2 hiff) (hv j st st1 h1 hiff hnd)

theorem visit_term (nv : List NodeState) (rk : ℕ → ℕ) (hw : WFRank nv rk)
    (hir : SrcsInRange nv) :
    ∀ fuel : ℕ,
      (∀ idx st, idx < nv.length → rk idx < fuel → (visit nv fuel idx st).isSome) ∧
      (∀ js st, (∀ j ∈ js, j < nv.length ∧ rk j < fuel) →
          (visitFold nv fuel js st).isSome) := by
  intro fuel
  induction fuel with
  | zero =>
      constructor
      · intro idx st _ hrk
        omega
      · intro js st hjs
        cases js with
        | nil => rw [visitFold_nil]; rfl
        | cons j js => exact absurd (hjs j (List.mem_cons_self _ _)).2 (by omega)
  | succ fuel ih =>
      have hv : ∀ idx st, idx < nv.length → rk idx < fuel + 1 →
          (visit nv (fuel + 1) idx st).isSome := by
        intro idx st hlen hrk
        rw [visit_succ]
        have hgi : nv.get? idx = some (nv.get ⟨idx, hlen⟩) := List.get?_eq_get hlen
        simp only [hgi]
        by_cases hskip : idx ∈ st.1 ∨ (nv.get ⟨idx, hlen⟩).node_type = NodeType.Input
        · rw [if_pos hskip]
          rfl
        · rw [if_neg hskip]
          have hcond : ∀ j ∈ srcs (nv.get ⟨idx, hlen⟩), j < nv.length ∧ rk j < fuel := by
            intro j hj
            refine ⟨hir idx _ hgi j hj, ?_⟩
            have := hw idx _ hgi j hj
            omega
          have hfold := ih.2 (srcs (nv.get ⟨idx, hlen⟩)) st hcond
          cases hfd : visitFold nv fuel (srcs (nv.get ⟨idx, hlen⟩)) st with
          | none => rw [hfd] at hfold; simp at hfold
          | some stc => simp only [hfd]; rfl
      refine ⟨hv, ?_⟩
      intro js
      induction js with
      | nil =>
          intro st _
          rw [visitFold_nil]
          rfl
      | cons j js ihj =>
          intro st hjs
          rw [visitFold_cons]
          have h1 := hv j st (hjs j (List.mem_cons_self _ _)).1 (hjs j (List.mem_cons_self _ _)).2
          cases hv1 : visit nv (fuel + 1) j st with
          | none => rw [hv1] at h1; simp at h1
          | some st1 =>
              simp only [hv1]
              exact ihj st1 (fun j2 hj2 => hjs j2 (List.mem_cons_of_mem _ hj2))

end Bobbles

namespace Bobbles

theorem idToIdx_lt (key : ℕ) :
    ∀ (l : List (ℕ × NodeType)) (i : ℕ), idToIdx key l = some i → i < l.length := by
  intro l
  induction l with
  | nil => intro i h; cases h
  | cons p ps ih =>
      intro i h
      unfold idToIdx at h
      by_cases hp : p.1 = key
      · rw [if_pos hp] at h
        injection h with h
        subst h
        simp
      · rw [if_neg hp] at h
        cases hrec : idToIdx key ps with
        | none => rw [hrec] at h; cases h
        | some i2 =>
            rw [hrec] at h
            simp only [Option.map_some', Option.some.injEq] at h
            subst h
            have := ih i2 hrec
            simp
            omega

theorem idToIdx_get (key : ℕ) :
    ∀ (l : List (ℕ × NodeType)) (i : ℕ), idToIdx key l = some i →
      ∃ p, l.get? i = some p ∧ p.1 = key := by
  intro l
  induction l with
  | nil => intro i h; cases h
  | cons p ps ih =>
      intro i h
      unfold idToIdx at h
      by_cases hp : p.1 = key
      · rw [if_pos hp] at h
        injection h with h
        subst h
        exact ⟨p, rfl, hp⟩
      · rw [if_neg hp] at h
        cases hrec : idToIdx key ps with
        | none => rw [hrec] at h; cases h
        | some i2 =>
            rw [hrec] at h
            simp only [Option.map_some', Option.some.injEq] at h
            subst h
            obtain ⟨q, hq, hqk⟩ := ih i2 hrec
            exact ⟨q, by simpa using hq, hqk⟩

theorem idToIdx_mem (key : ℕ) :
    ∀ l : List (ℕ × NodeType), key ∈ l.map Prod.fst → ∃ i, idToIdx key l = some i := by
  intro l
  induction l with
  | nil => intro h; simp at h
  | cons p ps ih =>
      intro h
      unfold idToIdx
      by_cases hp : p.1 = key
      · exact ⟨0, by rw [if_pos hp]⟩
      · rw [List.map_cons, List.mem_cons] at h
        rcases h with h | h
        · exact absurd h.symm hp
        · obtain ⟨i, hi⟩ := ih h
          exact ⟨i + 1, by rw [if_neg hp, hi]; rfl⟩

theorem initNodes_get (g : Genome) (i : ℕ) :
    (initNodes g).get? i =
      (g.nodes.get? i).map (fun p => ⟨p.1, 0, [], p.2⟩) := by
  unfold initNodes
  rw [List.get?_map]

theorem initNodes_length (g : Genome) : (initNodes g).length = g.nodes.length := by
  unfold initNodes
  rw [List.length_map]

theorem addEdges_length (nodes : List (ℕ × NodeType)) :
    ∀ (cs : List Connection) (nv nvR : List NodeState),
      addEdges nodes cs nv = some nvR → nvR.length = nv.length := by
  intro cs
  induction cs with
  | nil =>
      intro nv nvR h
      unfold addEdges at h
      injection h with h
      rw [h]
  | cons c cs ih =>
      intro nv nvR h
      unfold addEdges at h
      by_cases hen : c.enabled
      · rw [if_pos hen] at h
        cases ht : idToIdx c.to_idx nodes with
        | none => rw [ht] at h; cases h
        | some ti =>
            cases hf : idToIdx c.from_idx nodes with
            | none => rw [ht, hf] at h; cases h
            | some fi =>
                rw [ht, hf] at h
                simp only [] at h
                cases hn : nv.get? ti with
                | none => rw [hn] at h; cases h
                | some n =>
                    rw [hn] at h
                    have := ih _ nvR h
                    rw [this, List.length_set]
      · rw [if_neg hen] at h
        exact ih nv nvR h

end Bobbles

namespace Bobbles

theorem addEdges_structure (nodes : List (ℕ × NodeType)) :
    ∀ (cs : List Connection) (nv nvR : List NodeState),
      addEdges nodes cs nv = some nvR →
      ∀ i n', nvR.get? i = some n' →
        ∃ n, nv.get? i = some n ∧ n'.id = n.id ∧ n'.value = n.value ∧
          n'.node_type = n.node_type := by
  intro cs
  induction cs with
  | nil =>
      intro nv nvR h i n' hn'
      unfold addEdges at h
      injection h with h
      subst h
      exact ⟨n', hn', rfl, rfl, rfl⟩
  | cons c cs ih =>
      intro nv nvR h i n' hn'
      unfold addEdges at h
      by_cases hen : c.enabled
      · rw [if_pos hen] at h
        cases ht : idToIdx c.to_idx nodes with
        | none => rw [ht] at h; cases h
        | some ti =>
            cases hf : idToIdx c.from_idx nodes with
            | none => rw [ht, hf] at h; cases h
            | some fi =>
                rw [ht, hf] at h
                simp only [] at h
                cases hn : nv.get? ti with
                | none => rw [hn] at h; cases h
                | some n =>
                    rw [hn] at h
                    obtain ⟨m, hm, h1, h2, h3⟩ := ih _ nvR h i n' hn'
                    by_cases hit : ti = i
                    · subst hit
                      have hlt : ti < nv.length := by
                        rcases List.get?_eq_some.mp hn with ⟨hl, _⟩
                        exact hl
                      rw [List.get?_set_eq_of_lt _ hlt] at hm
                      injection hm with hm
                      subst hm
                      exact ⟨n, hn, h1, h2, h3⟩
                    · rw [List.get?_set_ne _ _ hit] at hm
                      exact ⟨m, hm, h1, h2, h3⟩
      · rw [if_neg hen] at h
        exact ih nv nvR h i n' hn'

theorem addEdges_provenance (nodes : List (ℕ × NodeType)) :
    ∀ (cs : List Connection) (nv nvR : List NodeState),
      addEdges nodes cs nv = some nvR →
      ∀ i n', nvR.get? i = some n' → ∀ p ∈ n'.incoming,
        (∃ n, nv.get? i = some n ∧ p ∈ n.incoming) ∨
        ∃ c ∈ cs, c.enabled = true ∧ idToIdx c.to_idx nodes = some i ∧
          idToIdx c.from_idx nodes = some p.1 := by
  intro cs
  induction cs with
  | nil =>
      intro nv nvR h i n' hn' p hp
      unfold addEdges at h
      injection h with h
      subst h
      exact Or.inl ⟨n', hn', hp⟩
  | cons c cs ih =>
      intro nv nvR h i n' hn' p hp
      unfold addEdges at h
      by_cases hen : c.enabled
      · rw [if_pos hen] at h
        cases ht : idToIdx c.to_idx nodes with
        | none => rw [ht] at h; cases h
        | some ti =>
            cases hf : idToIdx c.from_idx nodes with
            | none => rw [ht, hf] at h; cases h
            | some fi =>
                rw [ht, hf] at h
                simp only [] at h
                cases hn : nv.get? ti with
                | none => rw [hn] at h; cases h
                | some n =>
                    rw [hn] at h
                    rcases ih _ nvR h i n' hn' p hp with ⟨m, hm, hpm⟩ | ⟨c2, hc2, he2, ht2, hf2⟩
                    · by_cases hit : ti = i
                      · subst hit
                        have hlt : ti < nv.length := by
                          rcases List.get?_eq_some.mp hn with ⟨hl, _⟩
                          exact hl
                        rw [List.get?_set_eq_of_lt _ hlt] at hm
                        injection hm with hm
                        subst hm
                        simp only [List.mem_append, List.mem_singleton] at hpm
                        rcases hpm with hpm | hpm
                        · exact Or.inl ⟨n, hn, hpm⟩
                        · subst hpm
                          exact Or.inr ⟨c, List.mem_cons_self _ _, hen, ht, hf⟩
                      · rw [List.get?_set_ne _ _ hit] at hm
                        exact Or.inl ⟨m, hm, hpm⟩
                    · exact Or.inr ⟨c2, List.mem_cons_of_mem _ hc2, he2, ht2, hf2⟩
      · rw [if_neg hen] at h
        rcases ih nv nvR h i n' hn' p hp with h1 | ⟨c2, hc2, he2, ht2, hf2⟩
        · exact Or.inl h1
        · exact Or.inr ⟨c2, List.mem_cons_of_mem _ hc2, he2, ht2, hf2⟩

theorem addEdges_isSome (nodes : List (ℕ × NodeType)) :
    ∀ (cs : List Connection) (nv : List NodeState), nv.length = nodes.length →
      (∀ c ∈ cs, c.enabled = true → c.from_idx ∈ nodes.map Prod.fst ∧
        c.to_idx ∈ nodes.map Prod.fst) →
      ∃ nvR, addEdges nodes cs nv = some nvR := by
  intro cs
  induction cs with
  | nil =>
      intro nv _ _
      exact ⟨nv, rfl⟩
  | cons c cs ih =>
      intro nv hlen hc
      unfold addEdges
      by_cases hen : c.enabled
      · rw [if_pos hen]
        obtain ⟨hfm, htm⟩ := hc c (List.mem_cons_self _ _) hen
        obtain ⟨ti, ht⟩ := idToIdx_mem c.to_idx nodes htm
        obtain ⟨fi, hf⟩ := idToIdx_mem c.from_idx nodes hfm
        rw [ht, hf]
        simp only []
        have hlt : ti < nv.length := by
          rw [hlen]
          exact idToIdx_lt c.to_idx nodes ti ht
        have hget : nv.get? ti = some (nv.get ⟨ti, hlt⟩) := List.get?_eq_get hlt
        rw [hget]
        exact ih _ (by rw [List.length_set]; exact hlen)
          (fun c2 hc2 he2 => hc c2 (List.mem_cons_of_mem _ hc2) he2)
      · rw [if_neg hen]
        exact ih nv hlen (fun c2 hc2 he2 => hc c2 (List.mem_cons_of_mem _ hc2) he2)

theorem outputIndicesFrom_spec :
    ∀ (l : List NodeState) (s i : ℕ),
      i ∈ outputIndicesFrom l s ↔
        ∃ k n, l.get? k = some n ∧ n.node_type = NodeType.Output ∧ i = s + k := by
  intro l
  induction l with
  | nil =>
      intro s i
      simp [outputIndicesFrom]
  | cons n ns ih =>
      intro s i
      unfold outputIndicesFrom
      by_cases ht : n.node_type = NodeType.Output
      · rw [if_pos ht]
        simp only [List.mem_cons, ih (s + 1) i]
        constructor
        · rintro (h | ⟨k, m, hk, hm, hi⟩)
          · exact ⟨0, n, rfl, ht, by omega⟩
          · exact ⟨k + 1, m, by simpa using hk, hm, by omega⟩
        · rintro ⟨k, m, hk, hm, hi⟩
          cases k with
          | zero =>
              left
              omega
          | succ k =>
              right
              exact ⟨k, m, by simpa using hk, hm, by omega⟩
      · rw [if_neg ht]
        rw [ih (s + 1) i]
        constructor
        · rintro ⟨k, m, hk, hm, hi⟩
          exact ⟨k + 1, m, by simpa using hk, hm, by omega⟩
        · rintro ⟨k, m, hk, hm, hi⟩
          cases k with
          | zero =>
              simp only [List.get?_cons_zero, Option.some.injEq] at hk
              subst hk
              exact absurd hm ht
          | succ k =>
              exact ⟨k, m, by simpa using hk, hm, by omega⟩

theorem outputIndices_spec (nv : List NodeState) (i : ℕ) :
    i ∈ outputIndices nv ↔
      ∃ n, nv.get? i = some n ∧ n.node_type = NodeType.Output := by
  unfold outputIndices
  rw [outputIndicesFrom_spec]
  constructor
  · rintro ⟨k, n, hk, hn, hi⟩
    have : i = k := by omega
    subst this
    exact ⟨n, hk, hn⟩
  · rintro ⟨n, hn, ht⟩
    exact ⟨i, n, hn, ht, by omega⟩

end Bobbles

namespace Bobbles

theorem compile_elim (fuel : ℕ) (g : Genome) (nw : NeuralNetwork)
    (hc : compile fuel g = some nw) :
    ∃ st, addEdges g.nodes g.connections (initNodes g) = some nw.nodes ∧
      visitFold nw.nodes fuel (outputIndices nw.nodes) ([], []) = some st ∧
      nw.execution_order = st.2 ∧
      nw.output_indices = outputIndices nw.nodes ∧
      nw.inputs_count = (g.nodes.filter (fun p => p.2 = NodeType.Input)).length := by
  unfold compile at hc
  cases ha : addEdges g.nodes g.connections (initNodes g) with
  | none => rw [ha] at hc; cases hc
  | some nvR =>
      rw [ha] at hc
      simp only [Option.some_bind'] at hc
      cases hf : visitFold nvR fuel (outputIndices nvR) ([], []) with
      | none => rw [hf] at hc; cases hc
      | some st =>
          rw [hf] at hc
          simp only [Option.map_some', Option.some.injEq] at hc
          subst hc
          exact ⟨st, rfl, hf, rfl, rfl, rfl⟩

theorem compile_facts (fuel : ℕ) (g : Genome) (nw : NeuralNetwork)
    (hc : compile fuel g = some nw) :
    (∀ x ∈ nw.execution_order, NonInputAt nw.nodes x) ∧
    (∀ x ∈ nw.execution_order, ∀ n, nw.nodes.get? x = some n →
        ∀ j ∈ srcs n, ∃ m, nw.nodes.get? j = some m) ∧
    (∀ k x, nw.execution_order.get? k = some x → ∀ n, nw.nodes.get? x = some n →
        ∀ j ∈ srcs n, NonInputAt nw.nodes j → j ∈ nw.execution_order.take k) ∧
    (∀ i ∈ nw.output_indices, i ∈ nw.execution_order) := by
  obtain ⟨st, ha, hf, ho, hoi, hic⟩ := compile_elim fuel g nw hc
  have hg := (visit_good nw.nodes fuel).2 _ _ _ hf (good_nil nw.nodes)
  obtain ⟨hev, hafter, _⟩ := (visit_basic nw.nodes fuel).2 _ _ _ hf
  refine ⟨?_, ?_, ?_, ?_⟩
  · intro x hx
    exact hg.nonInput x (ho ▸ hx)
  · intro x hx n hn j hj
    exact hg.srcsExist x (ho ▸ hx) n hn j hj
  · intro k x hkx n hn j hj hjni
    rw [ho] at hkx ⊢
    exact hg.ordered k x hkx n hn j hj hjni
  · intro i hi
    rw [hoi] at hi
    obtain ⟨n, hn, ht⟩ := (outputIndices_spec nw.nodes i).mp hi
    obtain ⟨n2, hn2, hcase⟩ := hafter i hi
    rw [hn] at hn2
    injection hn2 with hn2
    subst hn2
    rcases hcase with hcin | hcv
    · rw [ht] at hcin
      cases hcin
    · rw [ho]
      exact (hg.mem_iff i).mp hcv

theorem sameShape_refl (s : List NodeState) : SameShape s s :=
  ⟨rfl, fun i a b ha hb => by rw [ha] at hb; injection hb with hb; subst hb; exact ⟨rfl, rfl, rfl⟩⟩

theorem sameShape_trans {s t u : List NodeState}
    (h1 : SameShape s t) (h2 : SameShape t u) : SameShape s u := by
  refine ⟨h1.1.trans h2.1, ?_⟩
  intro i a b ha hb
  have hi : i < t.length := by
    rw [← h1.1]
    exact (List.get?_eq_some.mp ha).1
  have hm : t.get? i = some (t.get ⟨i, hi⟩) := List.get?_eq_get hi
  obtain ⟨x1, x2, x3⟩ := h1.2 i a _ ha hm
  obtain ⟨y1, y2, y3⟩ := h2.2 i _ b hm hb
  exact ⟨x1.trans y1, x2.trans y2, x3.trans y3⟩

theorem sameShape_set_value {s : List NodeState} {i : ℕ} {n : NodeState} (x : ℚ)
    (h : s.get? i = some n) :
    SameShape s (s.set i { n with value := x }) := by
  refine ⟨(List.length_set s i _).symm, ?_⟩
  intro k a b ha hb
  by_cases hik : i = k
  · subst hik
    have hlt : i < s.length := (List.get?_eq_some.mp h).1
    rw [List.get?_set_eq_of_lt _ hlt] at hb
    rw [ha] at h
    injection h with h
    injection hb with hb
    subst h
    subst hb
    exact ⟨rfl, rfl, rfl⟩
  · rw [List.get?_set_ne _ _ hik] at hb
    rw [ha] at hb
    injection hb with hb
    subst hb
    exact ⟨rfl, rfl, rfl⟩

theorem sameShape_get {s t : List NodeState} (h : SameShape s t) {i : ℕ} {a : NodeState}
    (ha : s.get? i = some a) :
    ∃ b, t.get? i = some b ∧ b.id = a.id ∧ b.incoming = a.incoming ∧
      b.node_type = a.node_type := by
  have hi : i < t.length := by
    rw [← h.1]
    exact (List.get?_eq_some.mp ha).1
  have hb : t.get? i = some (t.get ⟨i, hi⟩) := List.get?_eq_get hi
  obtain ⟨x1, x2, x3⟩ := h.2 i a _ ha hb
  exact ⟨_, hb, x1.symm, x2.symm, x3.symm⟩

end Bobbles

namespace Bobbles

theorem weightedSum_isSome (s : List NodeState) :
    ∀ (ps : List (ℕ × ℚ)) (acc : ℚ),
      (∀ p ∈ ps, ∃ m, s.get? p.1 = some m) →
      ∃ q, weightedSum s ps acc = some q := by
  intro ps
  induction ps with
  | nil => intro acc _; exact ⟨acc, rfl⟩
  | cons p ps ih =>
      intro acc hsrc
      unfold weightedSum
      obtain ⟨m, hm⟩ := hsrc p (List.mem_cons_self _ _)
      rw [hm]
      exact ih _ (fun q hq => hsrc q (List.mem_cons_of_mem _ hq))

theorem weightedSum_congr {s t : List NodeState} (hsh : SameShape s t) :
    ∀ (ps : List (ℕ × ℚ)) (acc : ℚ),
      (∀ p ∈ ps, ∀ ms mt, s.get? p.1 = some ms → t.get? p.1 = some mt →
        ms.value = mt.value) →
      weightedSum s ps acc = weightedSum t ps acc := by
  intro ps
  induction ps with
  | nil => intro acc _; rfl
  | cons p ps ih =>
      intro acc hvals
      unfold weightedSum
      cases hm : s.get? p.1 with
      | none =>
          cases hmt : t.get? p.1 with
          | none => rfl
          | some mt =>
              have hi : p.1 < s.length := by
                rw [hsh.1]
                exact (List.get?_eq_some.mp hmt).1
              rw [List.get?_eq_get hi] at hm
              cases hm
      | some ms =>
          obtain ⟨mt, hmt, _, _, _⟩ := sameShape_get hsh hm
          rw [hmt]
          simp only []
          rw [hvals p (List.mem_cons_self _ _) ms mt hm hmt]
          exact ih _ (fun q hq => hvals q (List.mem_cons_of_mem _ hq))

theorem stepNode_eq (sq : ℚ → ℚ) (s : List NodeState) (i : ℕ) (n : NodeState)
    (hn : s.get? i = some n) (x : ℚ) (hx : weightedSum s n.incoming 0 = some x) :
    stepNode sq s i = some (s.set i { n with value := sq x }) := by
  unfold stepNode
  rw [hn]
  simp only []
  rw [hx]
  rfl

theorem runOrder_untouched (sq : ℚ → ℚ) :
    ∀ (order : List ℕ) (s s' : List NodeState),
      runOrder sq order s = some s' →
      ∀ i, i ∉ order → s'.get? i = s.get? i := by
  intro order
  induction order with
  | nil =>
      intro s s' h i _
      unfold runOrder at h
      injection h with h
      rw [h]
  | cons j rest ih =>
      intro s s' h i hi
      unfold runOrder at h
      cases hst : stepNode sq s j with
      | none => rw [hst] at h; cases h
      | some s1 =>
          rw [hst] at h
          have h2 := ih s1 s' h i (fun hmem => hi (List.mem_cons_of_mem _ hmem))
          rw [h2]
          unfold stepNode at hst
          cases hn : s.get? j with
          | none => rw [hn] at hst; cases hst
          | some n =>
              rw [hn] at hst
              simp only [] at hst
              cases hx : weightedSum s n.incoming 0 with
              | none => rw [hx] at hst; cases hst
              | some x =>
                  rw [hx] at hst
                  simp only [Option.map_some', Option.some.injEq] at hst
                  subst hst
                  have hji : j ≠ i := fun hji => hi (hji ▸ List.mem_cons_self _ _)
                  exact List.get?_set_ne _ _ hji

theorem runOrder_spec (sq : ℚ → ℚ) :
    ∀ (order : List ℕ) (s : List NodeState),
      (∀ i ∈ order, ∃ n, s.get? i = some n) →
      (∀ i ∈ order, ∀ n, s.get? i = some n → ∀ j ∈ srcs n, ∃ m, s.get? j = some m) →
      ∃ s', runOrder sq order s = some s' ∧ SameShape s s' ∧
        (∀ i ∈ order, ∃ n x, s'.get? i = some n ∧ n.value = sq x) := by
  intro order
  induction order with
  | nil =>
      intro s _ _
      exact ⟨s, rfl, sameShape_refl s, by simp⟩
  | cons j rest ih =>
      intro s hget hsrc
      obtain ⟨n, hn⟩ := hget j (List.mem_cons_self _ _)
      obtain ⟨x, hx⟩ := weightedSum_isSome s n.incoming 0
        (fun p hp => hsrc j (List.mem_cons_self _ _) n hn p.1 (List.mem_map_of_mem Prod.fst hp))
      have hstep := stepNode_eq sq s j n hn x hx
      have hsh1 : SameShape s (s.set j { n with value := sq x }) :=
        sameShape_set_value (sq x) hn
      have hget1 : ∀ i ∈ rest, ∃ m, (s.set j { n with value := sq x }).get? i = some m := by
        intro i hi
        obtain ⟨m, hm⟩ := hget i (List.mem_cons_of_mem _ hi)
        obtain ⟨m2, hm2, _⟩ := sameShape_get hsh1 hm
        exact ⟨m2, hm2⟩
      have hsrc1 : ∀ i ∈ rest, ∀ m, (s.set j { n with value := sq x }).get? i = some m →
          ∀ p ∈ srcs m, ∃ m2, (s.set j { n with value := sq x }).get? p = some m2 := by
        intro i hi m hm p hp
        by_cases hji : j = i
        · subst hji
          have hlt : j < s.length := (List.get?_eq_some.mp hn).1
          rw [List.get?_set_eq_of_lt _ hlt] at hm
          injection hm with hm
          subst hm
          obtain ⟨m2, hm2⟩ := hsrc j (List.mem_cons_self _ _) n hn p hp
          obtain ⟨m3, hm3, _⟩ := sameShape_get hsh1 hm2
          exact ⟨m3, hm3⟩
        · rw [List.get?_set_ne _ _ hji] at hm
          obtain ⟨m2, hm2⟩ := hsrc i (List.mem_cons_of_mem _ hi) m hm p hp
          obtain ⟨m3, hm3, _⟩ := sameShape_get hsh1 hm2
          exact ⟨m3, hm3⟩
      obtain ⟨s', hrun, hsh2, hvals⟩ := ih _ hget1 hsrc1
      refine ⟨s', ?_, sameShape_trans hsh1 hsh2, ?_⟩
      · unfold runOrder
        rw [hstep]
        exact hrun
      · intro i hi
        rcases List.mem_cons.mp hi with hji | hi2
        · subst hji
          by_cases hmem : i ∈ rest
          · exact hvals i hmem
          · have huntouched := runOrder_untouched sq rest _ s' hrun i hmem
            have hlt : i < s.length := (List.get?_eq_some.mp hn).1
            rw [List.get?_set_eq_of_lt _ hlt] at huntouched
            exact ⟨_, x, huntouched, rfl⟩
        · exact hvals i hi2

theorem collectOut_isSome (s : List NodeState) :
    ∀ is2 : List ℕ, (∀ i ∈ is2, ∃ n, s.get? i = some n) →
      ∃ outs, collectOut s is2 = some outs := by
  intro is2
  induction is2 with
  | nil => intro _; exact ⟨[], rfl⟩
  | cons i rest ih =>
      intro hget
      obtain ⟨n, hn⟩ := hget i (List.mem_cons_self _ _)
      obtain ⟨outs, houts⟩ := ih (fun k hk => hget k (List.mem_cons_of_mem _ hk))
      refine ⟨n.value :: outs, ?_⟩
      unfold collectOut
      rw [hn, houts]
      rfl

theorem collectOut_mem (s : List NodeState) :
    ∀ (is2 : List ℕ) (outs : List ℚ), collectOut s is2 = some outs →
      ∀ y ∈ outs, ∃ i ∈ is2, ∃ n, s.get? i = some n ∧ y = n.value := by
  intro is2
  induction is2 with
  | nil =>
      intro outs h y hy
      unfold collectOut at h
      injection h with h
      rw [← h] at hy
      simp at hy
  | cons i rest ih =>
      intro outs h y hy
      unfold collectOut at h
      cases hn : s.get? i with
      | none => rw [hn] at h; cases h
      | some n =>
          rw [hn] at h
          cases hrest : collectOut s rest with
          | none => rw [hrest] at h; cases h
          | some outs2 =>
              rw [hrest] at h
              simp only [Option.map_some', Option.some.injEq] at h
              rw [← h] at hy
              rcases List.mem_cons.mp hy with hy | hy
              · exact ⟨i, List.mem_cons_self _ _, n, hn, hy⟩
              · obtain ⟨i2, hi2, n2, hn2, hy2⟩ := ih outs2 hrest y hy
                exact ⟨i2, List.mem_cons_of_mem _ hi2, n2, hn2, hy2⟩

theorem collectOut_congr {s t : List NodeState} (hsh : SameShape s t) :
    ∀ is2 : List ℕ,
      (∀ i ∈ is2, ∀ ms mt, s.get? i = some ms → t.get? i = some mt →
        ms.value = mt.value) →
      collectOut s is2 = collectOut t is2 := by
  intro is2
  induction is2 with
  | nil => intro _; rfl
  | cons i rest ih =>
      intro hvals
      unfold collectOut
      cases hm : s.get? i with
      | none =>
          cases hmt : t.get? i with
          | none => rfl
          | some mt =>
              have hi : i < s.length := by
                rw [hsh.1]
                exact (List.get?_eq_some.mp hmt).1
              rw [List.get?_eq_get hi] at hm
              cases hm
      | some ms =>
          obtain ⟨mt, hmt, _, _, _⟩ := sameShape_get hsh hm
          rw [hmt]
          simp only []
          rw [hvals i (List.mem_cons_self _ _) ms mt hm hmt,
            ih (fun k hk => hvals k (List.mem_cons_of_mem _ hk))]

end Bobbles

namespace Bobbles

theorem sameShape_cons {n m : NodeState} {ns ms : List NodeState}
    (h : SameShape (n :: ns) (m :: ms)) :
    (n.id = m.id ∧ n.incoming = m.incoming ∧ n.node_type = m.node_type) ∧
    SameShape ns ms := by
  refine ⟨h.2 0 n m rfl rfl, ?_, ?_⟩
  · have := h.1
    simpa using this
  · intro i a b ha hb
    exact h.2 (i + 1) a b (by simpa using ha) (by simpa using hb)

theorem setInputs_spec (inputs : List ℚ) :
    ∀ (ns : List NodeState) (ptr : ℕ),
      ptr + (ns.filter (fun n => n.node_type = NodeType.Input)).length ≤ inputs.length →
      ∃ ns', setInputs inputs ns ptr = some ns' ∧
        (∀ i a, ns.get? i = some a → ∃ a', ns'.get? i = some a' ∧
          a'.id = a.id ∧ a'.incoming = a.incoming ∧ a'.node_type = a.node_type ∧
          (a.node_type ≠ NodeType.Input → a'.value = a.value)) ∧
        SameShape ns ns' := by
  intro ns
  induction ns with
  | nil =>
      intro ptr _
      refine ⟨[], rfl, ?_, sameShape_refl []⟩
      intro i a ha
      cases ha
  | cons n ns ih =>
      intro ptr hlen
      unfold setInputs
      by_cases ht : n.node_type = NodeType.Input
      · rw [if_pos ht]
        have hcount : (List.filter (fun n => n.node_type = NodeType.Input) (n :: ns)).length
            = (List.filter (fun n => n.node_type = NodeType.Input) ns).length + 1 := by
          simp [List.filter_cons, ht]
        have hptr : ptr < inputs.length := by omega
        have hx : inputs.get? ptr = some (inputs.get ⟨ptr, hptr⟩) := List.get?_eq_get hptr
        rw [hx]
        obtain ⟨ns', hns', hpt, hsh⟩ := ih (ptr + 1) (by omega)
        rw [hns']
        refine ⟨{ n with value := inputs.get ⟨ptr, hptr⟩ } :: ns', rfl, ?_, ?_⟩
        · intro i a ha
          cases i with
          | zero =>
              injection ha with ha
              subst ha
              exact ⟨_, rfl, rfl, rfl, rfl, fun hni => absurd ht hni⟩
          | succ i =>
              obtain ⟨a', ha', h1, h2, h3, h4⟩ := hpt i a (by simpa using ha)
              exact ⟨a', by simpa using ha', h1, h2, h3, h4⟩
        · refine ⟨by simpa using hsh.1, ?_⟩
          intro i a b ha hb
          cases i with
          | zero =>
              injection ha with ha
              injection hb with hb
              subst ha
              subst hb
              exact ⟨rfl, rfl, rfl⟩
          | succ i =>
              exact hsh.2 i a b (by simpa using ha) (by simpa using hb)
      · rw [if_neg ht]
        have hcount : (List.filter (fun n => n.node_type = NodeType.Input) (n :: ns)).length
            = (List.filter (fun n => n.node_type = NodeType.Input) ns).length := by
          simp [List.filter_cons, ht]
        obtain ⟨ns', hns', hpt, hsh⟩ := ih ptr (by omega)
        rw [hns']
        refine ⟨n :: ns', rfl, ?_, ?_⟩
        · intro i a ha
          cases i with
          | zero =>
              injection ha with ha
              subst ha
              exact ⟨n, rfl, rfl, rfl, rfl, fun _ => rfl⟩
          | succ i =>
              obtain ⟨a', ha', h1, h2, h3, h4⟩ := hpt i a (by simpa using ha)
              exact ⟨a', by simpa using ha', h1, h2, h3, h4⟩
        · refine ⟨by simpa using hsh.1, ?_⟩
          intro i a b ha hb
          cases i with
          | zero =>
              injection ha with ha
              injection hb with hb
              subst ha
              subst hb
              exact ⟨rfl, rfl, rfl⟩
          | succ i =>
              exact hsh.2 i a b (by simpa using ha) (by simpa using hb)

theorem setInputs_pair (inputs : List ℚ) :
    ∀ (s t : List NodeState), SameShape s t →
      ∀ (ptr : ℕ) (s' t' : List NodeState),
        setInputs inputs s ptr = some s' → setInputs inputs t ptr = some t' →
        ∀ i a b, s'.get? i = some a → t'.get? i = some b →
          a.node_type = NodeType.Input → a.value = b.value := by
  intro s
  induction s with
  | nil =>
      intro t hsh ptr s' t' hs ht i a b ha hb _
      cases t with
      | nil =>
          unfold setInputs at hs ht
          injection hs with hs
          injection ht with ht
          subst hs
          subst ht
          cases ha
      | cons m ms =>
          have := hsh.1
          simp at this
  | cons n ns ih =>
      intro t hsh ptr s' t' hs ht i a b ha hb hain
      cases t with
      | nil =>
          have := hsh.1
          simp at this
      | cons m ms =>
          obtain ⟨⟨hid, hinc, htype⟩, hshtail⟩ := sameShape_cons hsh
          unfold setInputs at hs ht
          by_cases hnt : n.node_type = NodeType.Input
          · rw [if_pos hnt] at hs
            rw [if_pos (htype ▸ hnt)] at ht
            cases hx : inputs.get? ptr with
            | none =>
                rw [hx] at hs
                cases hs
            | some x =>
                rw [hx] at hs ht
                cases hrs : setInputs inputs ns (ptr + 1) with
                | none => rw [hrs] at hs; cases hs
                | some rs =>
                    cases hrt : setInputs inputs ms (ptr + 1) with
                    | none => rw [hrt] at ht; cases ht
                    | some rt =>
                        rw [hrs] at hs
                        rw [hrt] at ht
                        simp only [Option.map_some', Option.some.injEq] at hs ht
                        subst hs
                        subst ht
                        cases i with
                        | zero =>
                            injection ha with ha
                            injection hb with hb
                            subst ha
                            subst hb
                            rfl
                        | succ i =>
                            exact ih ms hshtail (ptr + 1) rs rt hrs hrt i a b
                              (by simpa using ha) (by simpa using hb) hain
          · rw [if_neg hnt] at hs
            rw [if_neg (htype ▸ hnt)] at ht
            cases hrs : setInputs inputs ns ptr with
            | none => rw [hrs] at hs; cases hs
            | some rs =>
                cases hrt : setInputs inputs ms ptr with
                | none => rw [hrt] at ht; cases ht
                | some rt =>
                    rw [hrs] at hs
                    rw [hrt] at ht
                    simp only [Option.map_some', Option.some.injEq] at hs ht
                    subst hs
                    subst ht
                    cases i with
                    | zero =>
                        injection ha with ha
                        subst ha
                        exact absurd hain hnt
                    | succ i =>
                        exact ih ms hshtail ptr rs rt hrs hrt i a b
                          (by simpa using ha) (by simpa using hb) hain

end Bobbles

namespace Bobbles

theorem countInput_sameTypes :
    ∀ (s t : List NodeState), s.length = t.length →
      (∀ i a b, s.get? i = some a → t.get? i = some b → a.node_type = b.node_type) →
      (s.filter (fun n => n.node_type = NodeType.Input)).length =
      (t.filter (fun n => n.node_type = NodeType.Input)).length := by
  intro s
  induction s with
  | nil =>
      intro t hlen _
      cases t with
      | nil => rfl
      | cons m ms => simp at hlen
  | cons n ns ih =>
      intro t hlen htypes
      cases t with
      | nil => simp at hlen
      | cons m ms =>
          have hnm : n.node_type = m.node_type := htypes 0 n m rfl rfl
          have htl := ih ms (by simpa using hlen)
            (fun i a b ha hb => htypes (i + 1) a b (by simpa using ha) (by simpa using hb))
          simp only [List.filter_cons, hnm]
          by_cases hm : m.node_type = NodeType.Input
          · simp [hm, htl]
          · simp [hm, htl]

theorem initNodes_countInput (g : Genome) :
    ((initNodes g).filter (fun n => n.node_type = NodeType.Input)).length =
    (g.nodes.filter (fun p => p.2 = NodeType.Input)).length := by
  unfold initNodes
  induction g.nodes with
  | nil => rfl
  | cons p ps ih =>
      simp only [List.map_cons]
      by_cases hp : p.2 = NodeType.Input
      · simpa [List.filter_cons, hp] using ih
      · simpa [List.filter_cons, hp] using ih

theorem compiled_count (fuel : ℕ) (g : Genome) (nw : NeuralNetwork)
    (hc : compile fuel g = some nw) :
    (nw.nodes.filter (fun n => n.node_type = NodeType.Input)).length =
      nw.inputs_count := by
  obtain ⟨st, ha, _, _, _, hic⟩ := compile_elim fuel g nw hc
  have hlen : nw.nodes.length = (initNodes g).length := addEdges_length _ _ _ _ ha
  have htypes : ∀ i a b, nw.nodes.get? i = some a → (initNodes g).get? i = some b →
      a.node_type = b.node_type := by
    intro i a b haa hb
    obtain ⟨n0, hn0, _, _, h3⟩ := addEdges_structure _ _ _ _ ha i a haa
    rw [hn0] at hb
    injection hb with hb
    subst hb
    exact h3
  rw [countInput_sameTypes nw.nodes (initNodes g) hlen htypes, initNodes_countInput, hic]

theorem activate_elim (sq : ℚ → ℚ) (nw : NeuralNetwork) (inputs : List ℚ)
    (nw' : NeuralNetwork) (outs : List ℚ)
    (h : activate sq nw inputs = some (nw', outs)) :
    ∃ nv1 nv2, setInputs inputs nw.nodes 0 = some nv1 ∧
      runOrder sq nw.execution_order nv1 = some nv2 ∧
      collectOut nv2 nw.output_indices = some outs ∧
      nw' = { nw with nodes := nv2 } := by
  unfold activate at h
  cases h1 : setInputs inputs nw.nodes 0 with
  | none => rw [h1] at h; cases h
  | some nv1 =>
      rw [h1] at h
      simp only [Option.some_bind'] at h
      cases h2 : runOrder sq nw.execution_order nv1 with
      | none => rw [h2] at h; cases h
      | some nv2 =>
          rw [h2] at h
          simp only [Option.some_bind'] at h
          cases h3 : collectOut nv2 nw.output_indices with
          | none => rw [h3] at h; cases h
          | some outs2 =>
              rw [h3] at h
              simp only [Option.map_some', Option.some.injEq, Prod.mk.injEq] at h
              obtain ⟨hrec, houts⟩ := h
              subst houts
              exact ⟨nv1, nv2, rfl, h2, h3, hrec.symm⟩

theorem activate_intro (sq : ℚ → ℚ) (nw : NeuralNetwork) (inputs : List ℚ)
    (nv1 nv2 : List NodeState) (outs : List ℚ)
    (h1 : setInputs inputs nw.nodes 0 = some nv1)
    (h2 : runOrder sq nw.execution_order nv1 = some nv2)
    (h3 : collectOut nv2 nw.output_indices = some outs) :
    activate sq nw inputs = some ({ nw with nodes := nv2 }, outs) := by
  unfold activate
  rw [h1]
  simp only [Option.some_bind']
  rw [h2]
  simp only [Option.some_bind']
  rw [h3]
  rfl

end Bobbles

namespace Bobbles

theorem sameShape_symm {s t : List NodeState} (h : SameShape s t) : SameShape t s := by
  refine ⟨h.1.symm, ?_⟩
  intro i a b ha hb
  obtain ⟨x1, x2, x3⟩ := h.2 i b a hb ha
  exact ⟨x1.symm, x2.symm, x3.symm⟩

end Bobbles

/-- **C10** — confirmed (with the tanh squash abstracted as any function
`sq` whose range lies in `[-1, 1]`, which is the property of tanh the claim
relies on).  For every network produced by `compile` and every input vector
of length at least `inputs_count`, `activate` succeeds, and every element
of the returned output vector lies in `[-1, 1]`: every Output node is
scheduled in `execution_order`, so its stored value is `sq` of its weighted
incoming sum. -/
theorem claim_C10_activate_output_bounds (sq : ℚ → ℚ)
    (hsq : ∀ x, -1 ≤ sq x ∧ sq x ≤ 1)
    (fuel : ℕ) (g : Bobbles.Genome) (nw : Bobbles.NeuralNetwork)
    (hc : Bobbles.compile fuel g = some nw)
    (inputs : List ℚ) (hlen : nw.inputs_count ≤ inputs.length) :
    ∃ nw' outs, Bobbles.activate sq nw inputs = some (nw', outs) ∧
      ∀ y ∈ outs, -1 ≤ y ∧ y ≤ 1 := by
  obtain ⟨hni, hse, hord, houts⟩ := Bobbles.compile_facts fuel g nw hc
  have hcount := Bobbles.compiled_count fuel g nw hc
  obtain ⟨nv1, h1, hpt1, hsh1⟩ := Bobbles.setInputs_spec inputs nw.nodes 0 (by
    rw [Nat.zero_add, hcount]
    exact hlen)
  have hget1 : ∀ i ∈ nw.execution_order, ∃ n, nv1.get? i = some n := by
    intro i hi
    obtain ⟨n, hn, _⟩ := hni i hi
    obtain ⟨n2, hn2, _⟩ := Bobbles.sameShape_get hsh1 hn
    exact ⟨n2, hn2⟩
  have hsrc1 : ∀ i ∈ nw.execution_order, ∀ n, nv1.get? i = some n →
      ∀ j ∈ Bobbles.srcs n, ∃ m, nv1.get? j = some m := by
    intro i hi n hn j hj
    obtain ⟨n0, hn0, _, hinc, _⟩ := Bobbles.sameShape_get (Bobbles.sameShape_symm hsh1) hn
    have hj0 : j ∈ Bobbles.srcs n0 := by
      unfold Bobbles.srcs at hj ⊢
      rw [hinc]
      exact hj
    obtain ⟨m, hm⟩ := hse i hi n0 hn0 j hj0
    obtain ⟨m2, hm2, _⟩ := Bobbles.sameShape_get hsh1 hm
    exact ⟨m2, hm2⟩
  obtain ⟨nv2, h2, hsh2, hvals⟩ := Bobbles.runOrder_spec sq nw.execution_order nv1 hget1 hsrc1
  have hgetout : ∀ i ∈ nw.output_indices, ∃ n, nv2.get? i = some n := by
    intro i hi
    obtain ⟨n, hn⟩ := hget1 i (houts i hi)
    obtain ⟨n2, hn2, _⟩ := Bobbles.sameShape_get hsh2 hn
    exact ⟨n2, hn2⟩
  obtain ⟨outs, h3⟩ := Bobbles.collectOut_isSome nv2 nw.output_indices hgetout
  refine ⟨_, outs, Bobbles.activate_intro sq nw inputs nv1 nv2 outs h1 h2 h3, ?_⟩
  intro y hy
  obtain ⟨i, hi, n, hn, hyv⟩ := Bobbles.collectOut_mem nv2 nw.output_indices outs h3 y hy
  obtain ⟨n2, x, hn2, hval⟩ := hvals i (houts i hi)
  rw [hn] at hn2
  injection hn2 with hn2
  subst hn2
  rw [hyv, hval]
  exact hsq x

/-- **C10 witness** — the bound theorem instantiated at the compiled seed
network, the constant-zero squash (whose range trivially lies in `[-1, 1]`)
and the input vector `[1, 0]`. -/
theorem claim_C10_activate_output_bounds_witness :
    ∃ nw' outs, Bobbles.activate (fun _ => (0 : ℚ)) bobblesNet [1, 0] = some (nw', outs) ∧
      ∀ y ∈ outs, -1 ≤ y ∧ y ≤ 1 :=
  claim_C10_activate_output_bounds (fun _ => (0 : ℚ)) (fun x => by norm_num)
    10 bobblesSeed bobblesNet
    (by
      simp [bobblesSeed, bobblesNet, Bobbles.compile, Bobbles.addEdges, Bobbles.initNodes,
        Bobbles.idToIdx, Bobbles.visitFold, Bobbles.visit, Bobbles.outputIndices,
        Bobbles.outputIndicesFrom])
    [1, 0] (by norm_num [bobblesNet])

namespace Bobbles

theorem setInputs_pair2 (inputs : List ℚ) :
    ∀ (s t : List NodeState), SameShape s t →
      ∀ (ptr : ℕ) (s' : List NodeState), setInputs inputs s ptr = some s' →
        ∃ t', setInputs inputs t ptr = some t' ∧ SameShape t t' ∧
          (∀ i a b, s'.get? i = some a → t'.get? i = some b →
            a.node_type = NodeType.Input → a.value = b.value) := by
  intro s
  induction s with
  | nil =>
      intro t hsh ptr s' hs
      cases t with
      | nil =>
          unfold setInputs at hs ⊢
          injection hs with hs
          subst hs
          exact ⟨[], rfl, sameShape_refl [], fun i a b ha _ _ => by cases ha⟩
      | cons m ms =>
          have := hsh.1
          simp at this
  | cons n ns ih =>
      intro t hsh ptr s' hs
      cases t with
      | nil =>
          have := hsh.1
          simp at this
      | cons m ms =>
          obtain ⟨⟨hid, hinc, htype⟩, hshtail⟩ := sameShape_cons hsh
          unfold setInputs at hs ⊢
          by_cases hnt : n.node_type = NodeType.Input
          · rw [if_pos hnt] at hs
            rw [if_pos (htype ▸ hnt)]
            cases hx : inputs.get? ptr with
            | none => rw [hx] at hs; cases hs
            | some x =>
                rw [hx] at hs
                cases hrs : setInputs inputs ns (ptr + 1) with
                | none => rw [hrs] at hs; cases hs
                | some rs =>
                    rw [hrs] at hs
                    simp only [Option.map_some', Option.some.injEq] at hs
                    subst hs
                    obtain ⟨rt, hrt, hsht, hagree⟩ := ih ms hshtail (ptr + 1) rs hrs
                    rw [hrt]
                    refine ⟨{ m with value := x } :: rt, rfl, ?_, ?_⟩
                    · refine ⟨by simpa using hsht.1, ?_⟩
                      intro i a b ha hb
                      cases i with
                      | zero =>
                          injection ha with ha
                          injection hb with hb
                          subst ha
                          subst hb
                          exact ⟨rfl, rfl, rfl⟩
                      | succ i =>
                          exact hsht.2 i a b (by simpa using ha) (by simpa using hb)
                    · intro i a b ha hb hain
                      cases i with
                      | zero =>
                          injection ha with ha
                          injection hb with hb
                          subst ha
                          subst hb
                          rfl
                      | succ i =>
                          exact hagree i a b (by simpa using ha) (by simpa using hb) hain
          · rw [if_neg hnt] at hs
            rw [if_neg (htype ▸ hnt)]
            cases hrs : setInputs inputs ns ptr with
            | none => rw [hrs] at hs; cases hs
            | some rs =>
                rw [hrs] at hs
                simp only [Option.map_some', Option.some.injEq] at hs
                subst hs
                obtain ⟨rt, hrt, hsht, hagree⟩ := ih ms hshtail ptr rs hrs
                rw [hrt]
                refine ⟨m :: rt, rfl, ?_, ?_⟩
                · refine ⟨by simpa using hsht.1, ?_⟩
                  intro i a b ha hb
                  cases i with
                  | zero =>
                      injection ha with ha
                      injection hb with hb
                      subst ha
                      subst hb
                      exact ⟨rfl, rfl, rfl⟩
                  | succ i =>
                      exact hsht.2 i a b (by simpa using ha) (by simpa using hb)
                · intro i a b ha hb hain
                  cases i with
                  | zero =>
                      injection ha with ha
                      subst ha
                      exact absurd hain hnt
                  | succ i =>
                      exact hagree i a b (by simpa using ha) (by simpa using hb) hain

theorem runOrder_shape (sq : ℚ → ℚ) :
    ∀ (order : List ℕ) (s s' : List NodeState),
      runOrder sq order s = some s' → SameShape s s' := by
  intro order
  induction order with
  | nil =>
      intro s s' h
      unfold runOrder at h
      injection h with h
      subst h
      exact sameShape_refl s
  | cons j rest ih =>
      intro s s' h
      unfold runOrder at h
      cases hst : stepNode sq s j with
      | none => rw [hst] at h; cases h
      | some s1 =>
          rw [hst] at h
          unfold stepNode at hst
          cases hn : s.get? j with
          | none => rw [hn] at hst; cases hst
          | some n =>
              rw [hn] at hst
              simp only [] at hst
              cases hx : weightedSum s n.incoming 0 with
              | none => rw [hx] at hst; cases hst
              | some x =>
                  rw [hx] at hst
                  simp only [Option.map_some', Option.some.injEq] at hst
                  subst hst
                  exact sameShape_trans (sameShape_set_value (sq x) hn) (ih _ s' h)

end Bobbles

namespace Bobbles

theorem runOrder_agree (sq : ℚ → ℚ) :
    ∀ (rest done : List ℕ) (s t : List NodeState),
      SameShape s t →
      (∀ i a b, s.get? i = some a → t.get? i = some b →
         (a.node_type = NodeType.Input ∨ i ∈ done) → a.value = b.value) →
      (∀ k x, rest.get? k = some x → ∀ n, s.get? x = some n →
         ∀ j ∈ srcs n, ∀ m, s.get? j = some m → m.node_type ≠ NodeType.Input →
           (j ∈ done ∨ j ∈ rest.take k)) →
      ∀ s', runOrder sq rest s = some s' →
        ∃ t', runOrder sq rest t = some t' ∧ SameShape s' t' ∧
          (∀ i a b, s'.get? i = some a → t'.get? i = some b →
             (a.node_type = NodeType.Input ∨ i ∈ done ++ rest) → a.value = b.value) := by
  intro rest
  induction rest with
  | nil =>
      intro done s t hsh hagree _ s' h
      unfold runOrder at h ⊢
      injection h with h
      subst h
      exact ⟨t, rfl, hsh, fun i a b ha hb hP => hagree i a b ha hb (by simpa using hP)⟩
  | cons x rest ih =>
      intro done s t hsh hagree hord s' h
      unfold runOrder at h
      cases hst : stepNode sq s x with
      | none => rw [hst] at h; cases h
      | some s1 =>
          rw [hst] at h
          unfold stepNode at hst
          cases hn : s.get? x with
          | none => rw [hn] at hst; cases hst
          | some n =>
              rw [hn] at hst
              simp only [] at hst
              cases hw : weightedSum s n.incoming 0 with
              | none => rw [hw] at hst; cases hst
              | some w =>
                  rw [hw] at hst
                  simp only [Option.map_some', Option.some.injEq] at hst
                  subst hst
                  obtain ⟨nt, hnt, hidt, hinct, htypet⟩ := sameShape_get hsh hn
                  have hsum : weightedSum t nt.incoming 0 = some w := by
                    rw [hinct]
                    have hcg := weightedSum_congr hsh n.incoming 0 ?_
                    · rw [← hcg]
                      exact hw
                    · intro p hp ms mt hms hmt
                      by_cases hmi : ms.node_type = NodeType.Input
                      · exact hagree p.1 ms mt hms hmt (Or.inl hmi)
                      · have hj : p.1 ∈ srcs n := List.mem_map_of_mem Prod.fst hp
                        rcases hord 0 x rfl n hn p.1 hj ms hms hmi with hd | hd
                        · exact hagree p.1 ms mt hms hmt (Or.inr hd)
                        · simp at hd
                  have hstept : stepNode sq t x = some (t.set x { nt with value := sq w }) :=
                    stepNode_eq sq t x nt hnt w hsum
                  have hshs1 : SameShape s (s.set x { n with value := sq w }) :=
                    sameShape_set_value _ hn
                  have hsht1 : SameShape t (t.set x { nt with value := sq w }) :=
                    sameShape_set_value _ hnt
                  have hsh1 : SameShape (s.set x { n with value := sq w })
                      (t.set x { nt with value := sq w }) :=
                    sameShape_trans (sameShape_symm hshs1) (sameShape_trans hsh hsht1)
                  have hagree1 : ∀ i a b, (s.set x { n with value := sq w }).get? i = some a →
                      (t.set x { nt with value := sq w }).get? i = some b →
                      (a.node_type = NodeType.Input ∨ i ∈ done ++ [x]) → a.value = b.value := by
                    intro i a b ha hb hP
                    by_cases hxi : x = i
                    · subst hxi
                      have hlt : x < s.length := (List.get?_eq_some.mp hn).1
                      have hlt2 : x < t.length := by
                        rw [← hsh.1]
                        exact hlt
                      rw [List.get?_set_eq_of_lt _ hlt] at ha
                      rw [List.get?_set_eq_of_lt _ hlt2] at hb
                      injection ha with ha
                      injection hb with hb
                      subst ha
                      subst hb
                      rfl
                    · rw [List.get?_set_ne _ _ hxi] at ha
                      rw [List.get?_set_ne _ _ hxi] at hb
                      refine hagree i a b ha hb ?_
                      rcases hP with hP | hP
                      · exact Or.inl hP
                      · rcases List.mem_append.mp hP with hP | hP
                        · exact Or.inr hP
                        · rw [List.mem_singleton] at hP
                          exact absurd hP.symm hxi
                  have hord1 : ∀ k x2, rest.get? k = some x2 → ∀ n2,
                      (s.set x { n with value := sq w }).get? x2 = some n2 →
                      ∀ j ∈ srcs n2, ∀ m, (s.set x { n with value := sq w }).get? j = some m →
                        m.node_type ≠ NodeType.Input →
                        (j ∈ done ++ [x] ∨ j ∈ rest.take k) := by
                    intro k x2 hk n2 hn2 j hj m hm hmni
                    obtain ⟨n0, hn0, _, hinc0, _⟩ := sameShape_get (sameShape_symm hshs1) hn2
                    obtain ⟨m0, hm0, _, _, htype0⟩ := sameShape_get (sameShape_symm hshs1) hm
                    have hj0 : j ∈ srcs n0 := by
                      unfold srcs at hj ⊢
                      rw [hinc0]
                      exact hj
                    have hm0ni : m0.node_type ≠ NodeType.Input := by
                      rw [htype0]
                      exact hmni
                    rcases hord (k + 1) x2 (by simpa using hk) n0 hn0 j hj0 m0 hm0 hm0ni with hd | hd
                    · exact Or.inl (List.mem_append.mpr (Or.inl hd))
                    · rw [List.take_succ_cons] at hd
                      rcases List.mem_cons.mp hd with hd | hd
                      · exact Or.inl (List.mem_append.mpr (Or.inr (by simp [hd])))
                      · exact Or.inr hd
                  obtain ⟨t', hrunt, hsh2, hagree2⟩ := ih (done ++ [x]) _ _ hsh1 hagree1 hord1 s' h
                  refine ⟨t', ?_, hsh2, ?_⟩
                  · unfold runOrder
                    rw [hstept]
                    exact hrunt
                  · intro i a b ha hb hP
                    refine hagree2 i a b ha hb ?_
                    rcases hP with hP | hP
                    · exact Or.inl hP
                    · right
                      rcases List.mem_append.mp hP with hP | hP
                      · exact List.mem_append.mpr (Or.inl (List.mem_append.mpr (Or.inl hP)))
                      · rcases List.mem_cons.mp hP with hP | hP
                        · exact List.mem_append.mpr
                            (Or.inl (List.mem_append.mpr (Or.inr (by simp [hP]))))
                        · exact List.mem_append.mpr (Or.inr hP)

end Bobbles

/-- **C8 amended** — purity of the bobbles pipeline.  On a network produced
by `compile`, re-running `activate` with the identical input vector returns
the identical output vector: the first call leaves the network in a state
`nw1` that differs from `nw` only in node values, the input assignment
overwrites every Input node with the same inputs, and every scheduled
node's non-Input sources are scheduled earlier, so the whole recomputation
agrees with the first one.  (In the BasicNN engine the corresponding
statement is false — see the counterexample.) -/
theorem claim_C8_activate_pure_amended (sq : ℚ → ℚ) (fuel : ℕ)
    (g : Bobbles.Genome) (nw : Bobbles.NeuralNetwork)
    (hc : Bobbles.compile fuel g = some nw)
    (inputs : List ℚ) (nw1 : Bobbles.NeuralNetwork) (out1 : List ℚ)
    (h1 : Bobbles.activate sq nw inputs = some (nw1, out1)) :
    ∃ nw2, Bobbles.activate sq nw1 inputs = some (nw2, out1) := by
  obtain ⟨hni, hse, hord, houts⟩ := Bobbles.compile_facts fuel g nw hc
  obtain ⟨nv1, nv2, hs1, hr1, hc1, hnw1⟩ := Bobbles.activate_elim sq nw inputs nw1 out1 h1
  obtain ⟨nv1b, hs1b, hshA0, _⟩ :=
    Bobbles.setInputs_pair2 inputs nw.nodes nw.nodes (Bobbles.sameShape_refl _) 0 nv1 hs1
  rw [hs1] at hs1b
  injection hs1b with hs1b
  subst hs1b
  have hshA : Bobbles.SameShape nw.nodes nv1 := hshA0
  have hshB : Bobbles.SameShape nv1 nv2 := Bobbles.runOrder_shape sq _ nv1 nv2 hr1
  have hshAB : Bobbles.SameShape nw.nodes nv2 := Bobbles.sameShape_trans hshA hshB
  obtain ⟨t1, hst1, hshC, hagreeIn⟩ := Bobbles.setInputs_pair2 inputs nw.nodes nv2 hshAB 0 nv1 hs1
  have hshST : Bobbles.SameShape nv1 t1 :=
    Bobbles.sameShape_trans (Bobbles.sameShape_symm hshA) (Bobbles.sameShape_trans hshAB hshC)
  have hordv : ∀ k x, nw.execution_order.get? k = some x → ∀ n, nv1.get? x = some n →
      ∀ j ∈ Bobbles.srcs n, ∀ m, nv1.get? j = some m → m.node_type ≠ NodeType.Input →
        (j ∈ ([] : List ℕ) ∨ j ∈ nw.execution_order.take k) := by
    intro k x hk n hn j hj m hm hmni
    obtain ⟨n0, hn0, _, hinc0, _⟩ := Bobbles.sameShape_get (Bobbles.sameShape_symm hshA) hn
    obtain ⟨m0, hm0, _, _, htype0⟩ := Bobbles.sameShape_get (Bobbles.sameShape_symm hshA) hm
    have hj0 : j ∈ Bobbles.srcs n0 := by
      unfold Bobbles.srcs at hj ⊢
      rw [hinc0]
      exact hj
    right
    refine hord k x hk n0 hn0 j hj0 ⟨m0, hm0, ?_⟩
    rw [htype0]
    exact hmni
  obtain ⟨t2, hr2, hsh2, hagree2⟩ := Bobbles.runOrder_agree sq nw.execution_order [] nv1 t1
    hshST (fun i a b ha hb hP => by
      rcases hP with hP | hP
      · exact hagreeIn i a b ha hb hP
      · simp at hP)
    hordv nv2 hr1
  have hcoll : Bobbles.collectOut nv2 nw.output_indices =
      Bobbles.collectOut t2 nw.output_indices := by
    refine Bobbles.collectOut_congr hsh2 nw.output_indices ?_
    intro i hi ms mt hms hmt
    refine hagree2 i ms mt hms hmt (Or.inr ?_)
    simpa using houts i hi
  rw [hcoll] at hc1
  refine ⟨{ nw1 with nodes := t2 }, ?_⟩
  have hintro := Bobbles.activate_intro sq nw1 inputs t1 t2 out1 ?_ ?_ ?_
  · convert hintro using 3
  · rw [hnw1]
    exact hst1
  · rw [hnw1]
    exact hr2
  · rw [hnw1]
    exact hc1

/-- **C8 amended witness** — re-activating the compiled seed network after a
first activation with inputs `[1, 0]` (identity squash) returns the same
output vector `[3/5]`. -/
theorem claim_C8_activate_pure_amended_witness :
    ∃ nw2, Bobbles.activate (fun x => x) bobblesNet1 [1, 0] = some (nw2, [3/5]) :=
  claim_C8_activate_pure_amended (fun x => x) 10 bobblesSeed bobblesNet
    (by
      simp [bobblesSeed, bobblesNet, Bobbles.compile, Bobbles.addEdges, Bobbles.initNodes,
        Bobbles.idToIdx, Bobbles.visitFold, Bobbles.visit, Bobbles.outputIndices,
        Bobbles.outputIndicesFrom])
    [1, 0] bobblesNet1 [3/5]
    (by
      simp [bobblesNet, bobblesNet1, Bobbles.activate, Bobbles.setInputs, Bobbles.runOrder,
        Bobbles.stepNode, Bobbles.weightedSum, Bobbles.collectOut])

namespace Bobbles

theorem compiled_wfrank (g : Genome) (nvR : List NodeState)
    (ha : addEdges g.nodes g.connections (initNodes g) = some nvR)
    (rank : ℕ → ℕ)
    (hrank : ∀ c ∈ g.connections, c.enabled = true → rank c.from_idx < rank c.to_idx) :
    WFRank nvR (fun i => rank (((g.nodes.get? i).map Prod.fst).getD 0)) ∧
    SrcsInRange nvR := by
  have hsrc : ∀ i n, nvR.get? i = some n → ∀ p ∈ n.incoming,
      ∃ c ∈ g.connections, c.enabled = true ∧ idToIdx c.to_idx g.nodes = some i ∧
        idToIdx c.from_idx g.nodes = some p.1 := by
    intro i n hn p hp
    rcases addEdges_provenance g.nodes g.connections _ nvR ha i n hn p hp with
      ⟨n0, hn0, hp0⟩ | hc
    · rw [initNodes_get] at hn0
      cases hg : g.nodes.get? i with
      | none => rw [hg] at hn0; cases hn0
      | some q =>
          rw [hg] at hn0
          simp only [Option.map_some', Option.some.injEq] at hn0
          rw [← hn0] at hp0
          simp at hp0
    · exact hc
  constructor
  · intro i n hn j hj
    obtain ⟨p, hp, hpj⟩ := List.mem_map.mp hj
    subst hpj
    obtain ⟨c, hcm, hen, hti, hfj⟩ := hsrc i n hn p hp
    obtain ⟨pi, hpi, hpik⟩ := idToIdx_get c.to_idx g.nodes i hti
    obtain ⟨pj, hpj2, hpjk⟩ := idToIdx_get c.from_idx g.nodes p.1 hfj
    simp only [hpi, hpj2, Option.map_some', Option.getD_some, hpik, hpjk]
    exact hrank c hcm hen
  · intro i n hn j hj
    obtain ⟨p, hp, hpj⟩ := List.mem_map.mp hj
    subst hpj
    obtain ⟨c, hcm, hen, hti, hfj⟩ := hsrc i n hn p hp
    have h1 := idToIdx_lt c.from_idx g.nodes p.1 hfj
    have h2 : nvR.length = g.nodes.length := by
      rw [addEdges_length g.nodes g.connections _ nvR ha, initNodes_length]
    omega

end Bobbles

/-- **C3 amended** — what `compile` actually guarantees, under the
hypotheses the original claim lacks.  For every genome whose enabled
connections reference existing node ids and admit a rank function that
strictly increases along every enabled edge (acyclicity — mutation-reachable
genomes need not satisfy this, since add-connection has no cycle guard),
`compile` terminates with some fuel, and the execution order: contains no
index twice; contains only non-Input nodes; contains every Output node;
contains exactly the nodes some Output node depends on through enabled
connections (both inclusions); and schedules every non-Input source of a
scheduled node before it. -/
theorem claim_C3_compile_topological_amended (g : Bobbles.Genome)
    (href : ∀ c ∈ g.connections, c.enabled = true →
       c.from_idx ∈ g.nodes.map Prod.fst ∧ c.to_idx ∈ g.nodes.map Prod.fst)
    (rank : ℕ → ℕ)
    (hrank : ∀ c ∈ g.connections, c.enabled = true → rank c.from_idx < rank c.to_idx) :
    ∃ fuel nw, Bobbles.compile fuel g = some nw ∧
      nw.execution_order.Nodup ∧
      (∀ i ∈ nw.execution_order, Bobbles.NonInputAt nw.nodes i) ∧
      (∀ i ∈ nw.output_indices, i ∈ nw.execution_order) ∧
      (∀ i ∈ nw.output_indices, ∀ j, Bobbles.Dep nw.nodes i j → j ∈ nw.execution_order) ∧
      (∀ j ∈ nw.execution_order, ∃ i ∈ nw.output_indices, Bobbles.Dep nw.nodes i j) ∧
      (∀ k x, nw.execution_order.get? k = some x → ∀ n, nw.nodes.get? x = some n →
         ∀ p ∈ Bobbles.srcs n, Bobbles.NonInputAt nw.nodes p →
           p ∈ nw.execution_order.take k) := by
  obtain ⟨nvR, ha⟩ := Bobbles.addEdges_isSome g.nodes g.connections (Bobbles.initNodes g)
    (Bobbles.initNodes_length g) href
  obtain ⟨hwf, hir⟩ := Bobbles.compiled_wfrank g nvR ha rank hrank
  have hcond : ∀ j ∈ Bobbles.outputIndices nvR, j < nvR.length ∧
      (fun i => rank (((g.nodes.get? i).map Prod.fst).getD 0)) j <
        ((Bobbles.outputIndices nvR).map
          (fun i => rank (((g.nodes.get? i).map Prod.fst).getD 0))).sum + 1 := by
    intro j hj
    constructor
    · obtain ⟨n, hn, _⟩ := (Bobbles.outputIndices_spec nvR j).mp hj
      exact (List.get?_eq_some.mp hn).1
    · have hle := List.single_le_sum
        (l := (Bobbles.outputIndices nvR).map
          (fun i => rank (((g.nodes.get? i).map Prod.fst).getD 0)))
        (fun x _ => Nat.zero_le x) _
        (List.mem_map_of_mem (fun i => rank (((g.nodes.get? i).map Prod.fst).getD 0)) hj)
      omega
  have hterm := (Bobbles.visit_term nvR
    (fun i => rank (((g.nodes.get? i).map Prod.fst).getD 0)) hwf hir
    (((Bobbles.outputIndices nvR).map
      (fun i => rank (((g.nodes.get? i).map Prod.fst).getD 0))).sum + 1)).2
    (Bobbles.outputIndices nvR) ([], []) hcond
  cases hfold : Bobbles.visitFold nvR
      (((Bobbles.outputIndices nvR).map
        (fun i => rank (((g.nodes.get? i).map Prod.fst).getD 0))).sum + 1)
      (Bobbles.outputIndices nvR) ([], []) with
  | none => rw [hfold] at hterm; simp at hterm
  | some st =>
      have hcomp : Bobbles.compile
          (((Bobbles.outputIndices nvR).map
            (fun i => rank (((g.nodes.get? i).map Prod.fst).getD 0))).sum + 1) g = some
          { nodes := nvR, execution_order := st.2,
            inputs_count := (g.nodes.filter (fun p => p.2 = NodeType.Input)).length,
            output_indices := Bobbles.outputIndices nvR } := by
        unfold Bobbles.compile
        rw [ha]
        simp only [Option.some_bind']
        rw [hfold]
        rfl
      obtain ⟨hni, _, hord, houts⟩ := Bobbles.compile_facts _ g _ hcomp
      obtain ⟨hev, _, hsound⟩ := (Bobbles.visit_basic nvR _).2 _ _ _ hfold
      refine ⟨_, _, hcomp,
        (Bobbles.visit_nodup nvR _ hwf _).2 _ _ _ hfold (by simp) List.nodup_nil,
        hni, houts, ?_, ?_, hord⟩
      · intro i hi j hd
        have hcomplete := (Bobbles.visit_complete nvR _).2 _ _ _ hfold
          (Bobbles.good_nil nvR) i hi j hd
        exact (hev.2.2 (by simp) j).mp hcomplete
      · intro j hj
        have hj1 : j ∈ st.1 := (hev.2.2 (by simp) j).mpr hj
        rcases hsound j hj1 with h0 | hex
        · simp at h0
        · exact hex

/-- **C3 amended witness** — the amended compile theorem instantiated at the
seed genome, with the identity rank function (enabled edges `0→2` and `1→2`
strictly increase it). -/
theorem claim_C3_compile_topological_amended_witness :
    (∀ c ∈ bobblesSeed.connections, c.enabled = true →
       c.from_idx ∈ bobblesSeed.nodes.map Prod.fst ∧
       c.to_idx ∈ bobblesSeed.nodes.map Prod.fst) ∧
    (∀ c ∈ bobblesSeed.connections, c.enabled = true →
       (fun n => n) c.from_idx < (fun n => n) c.to_idx) ∧
    (∃ fuel nw, Bobbles.compile fuel bobblesSeed = some nw ∧
      nw.execution_order.Nodup ∧
      (∀ i ∈ nw.execution_order, Bobbles.NonInputAt nw.nodes i) ∧
      (∀ i ∈ nw.output_indices, i ∈ nw.execution_order) ∧
      (∀ i ∈ nw.output_indices, ∀ j, Bobbles.Dep nw.nodes i j → j ∈ nw.execution_order) ∧
      (∀ j ∈ nw.execution_order, ∃ i ∈ nw.output_indices, Bobbles.Dep nw.nodes i j) ∧
      (∀ k x, nw.execution_order.get? k = some x → ∀ n, nw.nodes.get? x = some n →
         ∀ p ∈ Bobbles.srcs n, Bobbles.NonInputAt nw.nodes p →
           p ∈ nw.execution_order.take k)) :=
  ⟨by decide, by decide,
   claim_C3_compile_topological_amended bobblesSeed (by decide) (fun n => n) (by decide)⟩
